import Mathlib

/-!
Verification of the embedding-backed similarity index of `src/vector_store.py`
(classes `SimpleChunker`, `OllamaEmbeddings`, `VectorStore`).

Python strings are modelled as `List Char`; Python floats are modelled as `ℚ`
(exact arithmetic; no claim in scope depends on rounding); wall-clock
`time.time()` is modelled as a logical clock that yields a strictly larger
value on each call; Python dicts are modelled as association lists with
replace-or-append insertion (matching dict insertion-order semantics).

The Ollama embedding HTTP call (an external collaborator) is modelled as a
parameter `provider : PyStr → Option Vec`: `some v` is a successful response
with embedding `v`, `none` is a request error or timeout (the `except` path of
`OllamaEmbeddings.get_embedding`).  `faiss.normalize_L2` (external FAISS
library) is modelled as a parameter `nrm : Vec → Vec`, since exact L2
normalization is irrational in general; every universally-quantified theorem
below holds for every choice of `nrm`, and concrete instances use unit
vectors, on which `faiss.normalize_L2` is the identity.
-/

/-- Python `str` as a list of characters; `len` is `List.length`. -/
abbrev PyStr := List Char

/-- Characters matched by the regex class `\s` (ASCII range), which is also
what `str.strip()` removes. -/
def pyIsSpace (c : Char) : Bool :=
  c = ' ' || c = '\t' || c = '\n' || c = '\r' || c = '\x0b' || c = '\x0c'

/-- Python `str.strip()`: drop leading and trailing whitespace. -/
def pyStrip (s : PyStr) : PyStr :=
  ((s.dropWhile pyIsSpace).reverse.dropWhile pyIsSpace).reverse

/-- Largest index `j` with `run[j] = newline`, if any.  Used for the greedy
backtracking of `\s*` in the paragraph separator regex. -/
def lastNL : PyStr → Option Nat
  | [] => none
  | c :: t =>
    match lastNL t with
    | some j => some (j + 1)
    | none => if c = '\n' then some 0 else none

/-- Length of the match of the regex `\n\s*\n` anchored at the head of `s`,
if it matches there: a newline, then a greedy run of whitespace that
backtracks to end at the last newline available. -/
def paraMatchLen (s : PyStr) : Option Nat :=
  match s with
  | [] => none
  | c :: rest =>
    if c = '\n' then
      match lastNL (rest.takeWhile pyIsSpace) with
      | some j => some (j + 2)
      | none => none
    else none

/-- Scanner for `re.split(r'\n\s*\n', text)`: leftmost non-overlapping
matches, each consumed as a separator.  `fuel` bounds the scan length
(`fuel = s.length` suffices, since every step consumes at least one
character); the fuel-exhausted branch is never reached from `paraSplit`. -/
def paraSplitAux : Nat → PyStr → PyStr → List PyStr
  | 0, s, acc => [acc.reverse ++ s]
  | _ + 1, [], acc => [acc.reverse]
  | fuel + 1, c :: rest, acc =>
    match paraMatchLen (c :: rest) with
    | some n => acc.reverse :: paraSplitAux fuel (List.drop n (c :: rest)) []
    | none => paraSplitAux fuel rest (c :: acc)

/-- Model of `re.split(r'\n\s*\n', text)` from `SimpleChunker.chunk_by_paragraph`. -/
def paraSplit (s : PyStr) : List PyStr :=
  paraSplitAux s.length s []

/-- Sentence-final punctuation of the regex class `[.!?]`. -/
def isSentEnd (c : Char) : Bool :=
  c = '.' || c = '!' || c = '?'

/-- Scanner for `re.split(r'(?<=[.!?])\s+', text)`: a separator is a maximal
whitespace run whose preceding character is sentence-final punctuation; the
punctuation stays with the piece before the separator.  `fuel` as in
`paraSplitAux`. -/
def sentSplitAux : Nat → PyStr → PyStr → List PyStr
  | 0, s, acc => [acc.reverse ++ s]
  | _ + 1, [], acc => [acc.reverse]
  | fuel + 1, c :: rest, acc =>
    if isSentEnd c && (match rest with | r :: _ => pyIsSpace r | [] => false) then
      (acc.reverse ++ [c]) :: sentSplitAux fuel (rest.dropWhile pyIsSpace) []
    else
      sentSplitAux fuel rest (c :: acc)

/-- Model of `re.split(r'(?<=[.!?])\s+', text)` from `SimpleChunker.chunk_by_sentence`. -/
def sentSplit (s : PyStr) : List PyStr :=
  sentSplitAux s.length s []

/-- The accumulation loop of `SimpleChunker.chunk_by_sentence`: build a
running buffer `current` of sentences; when adding the next sentence would
exceed `max_size` and the buffer has reached `min_size`, emit the stripped
buffer; at the end emit the buffer only if it is non-empty and has reached
`min_size`. -/
def sentAccLoop (min_size max_size : Nat) : List PyStr → List PyStr → PyStr → List PyStr
  | [], chunks, current =>
    if !current.isEmpty && decide (min_size ≤ current.length) then
      chunks ++ [pyStrip current]
    else chunks
  | sentence :: rest, chunks, current =>
    if decide (max_size < current.length + sentence.length) && decide (min_size ≤ current.length) then
      sentAccLoop min_size max_size rest (chunks ++ [pyStrip current]) sentence
    else if current.isEmpty then
      sentAccLoop min_size max_size rest chunks sentence
    else
      sentAccLoop min_size max_size rest chunks (current ++ ' ' :: sentence)

/-- Model of `SimpleChunker.chunk_by_sentence(text, min_size, max_size)`. -/
def chunk_by_sentence (text : PyStr) (min_size max_size : Nat) : List PyStr :=
  sentAccLoop min_size max_size (sentSplit text) [] []

/-- Model of `SimpleChunker.chunk_by_paragraph(text, min_size, max_size)`: split on
blank-line boundaries, keep stripped paragraphs that are non-empty and at
least `min_size` long, and re-split any paragraph longer than `max_size` by
sentences. -/
def chunk_by_paragraph (text : PyStr) (min_size max_size : Nat) : List PyStr :=
  let paragraphs := ((paraSplit text).map pyStrip).filter
    (fun p => !p.isEmpty && decide (min_size ≤ p.length))
  paragraphs.flatMap (fun para =>
    if para.length ≤ max_size then [para]
    else chunk_by_sentence para min_size max_size)

/-- Embedding vectors; Python `List[float]` modelled over `ℚ`. -/
abbrev Vec := List ℚ

/-- Rational addition written through `mkRat` so that the kernel can evaluate
it (the primitive `Rat.add` is irreducible); `qAdd_eq` proves it is `+`. -/
def qAdd (a b : ℚ) : ℚ := mkRat (a.num * b.den + b.num * a.den) (a.den * b.den)

/-- Rational subtraction through `mkRat`; `qSub_eq` proves it is `-`. -/
def qSub (a b : ℚ) : ℚ := mkRat (a.num * b.den - b.num * a.den) (a.den * b.den)

/-- Rational multiplication through `mkRat`; `qMul_eq` proves it is `*`. -/
def qMul (a b : ℚ) : ℚ := mkRat (a.num * b.num) (a.den * b.den)

/-- Squared Euclidean distance, the metric of `faiss.IndexFlatL2`
(see `sqDist_eq` for the textbook form). -/
def sqDist (a b : Vec) : ℚ :=
  (List.zipWith (fun x y => qMul (qSub x y) (qSub x y)) a b).foldr qAdd 0

/-- Value of `FLT_MAX`, the distance FAISS reports for padding entries when fewer than
`k` vectors are stored.  Its exact value is never observable: padding entries
never produce a search result. -/
def fltMax : ℚ := mkRat (2 ^ 128 - 2 ^ 104) 1

/-- FAISS result ordering: ascending distance, ties broken by lowest slot. -/
def hitLE (a b : Int × ℚ) : Prop :=
  a.2 < b.2 ∨ (a.2 = b.2 ∧ a.1 ≤ b.1)

instance : DecidableRel hitLE := fun a b => by
  unfold hitLE; infer_instance

instance : IsTotal (Int × ℚ) hitLE where
  total a b := by
    rcases lt_trichotomy a.2 b.2 with h | h | h
    · exact Or.inl (Or.inl h)
    · rcases le_total a.1 b.1 with h1 | h1
      · exact Or.inl (Or.inr ⟨h, h1⟩)
      · exact Or.inr (Or.inr ⟨h.symm, h1⟩)
    · exact Or.inr (Or.inl h)

instance : IsTrans (Int × ℚ) hitLE where
  trans a b c := by
    rintro (h | ⟨h, h1⟩) (h2 | ⟨h2, h3⟩)
    · exact Or.inl (h.trans h2)
    · exact Or.inl (h2 ▸ h)
    · exact Or.inl (h ▸ h2)
    · exact Or.inr ⟨h.trans h2, h1.trans h3⟩

/-- Modelled from the spec: `faiss.IndexFlatL2.search` (external FAISS
library; `self.index.search(query_np, k)` in `VectorStore.search`).
Brute-force squared-L2 nearest neighbors over all stored vectors, ascending
distance with ties broken by lowest slot, exactly `k` rows returned, padded
with label `-1` (distance `FLT_MAX`) when fewer than `k` vectors exist. -/
def faissScored (vecs : List Vec) (q : Vec) : List (Int × ℚ) :=
  vecs.enum.map (fun p => ((p.1 : Int), sqDist q p.2))

def faissSearch (vecs : List Vec) (q : Vec) (k : Nat) : List (Int × ℚ) :=
  (List.insertionSort hitLE (faissScored vecs q)).take k ++
    List.replicate (k - vecs.length) ((-1 : Int), fltMax)

/-- JSON-representable metadata values. -/
inductive Val where
  | num (q : ℚ)
  | str (s : PyStr)
deriving DecidableEq

/-- Python `dict` as an association list with unique keys. -/
abbrev PyDict (α : Type) := List (PyStr × α)

/-- Python `d[k]` lookup (first matching key). -/
def alGet {α : Type} : PyDict α → PyStr → Option α
  | [], _ => none
  | (k', v) :: t, k => if k' = k then some v else alGet t k

/-- Python `d[k] = v`: replace the value in place if the key exists,
otherwise append (dict insertion order). -/
def alSet {α : Type} : PyDict α → PyStr → α → PyDict α
  | [], k, v => [(k, v)]
  | (k', v') :: t, k, v => if k' = k then (k, v) :: t else (k', v') :: alSet t k v

/-- Python `d.update(m)`: set every key of `m` in order. -/
def alUpdate {α : Type} (d m : PyDict α) : PyDict α :=
  m.foldl (fun d p => alSet d p.1 p.2) d

/-- One entry of `metadata["chunks"]` — the Chunk Catalog record created in
`VectorStore.add_text`.  `text_id = none` is the tombstone written by
`update_text`. -/
structure ChunkRec where
  chunk_index : Nat
  text_id : Option PyStr
  chunk_num : Nat
  content : PyStr
  metadata : PyDict Val
  created_at : Nat
deriving DecidableEq

/-- The mutable state of a `VectorStore`: the FAISS index (`index`), the
chunk catalog (`metadata["chunks"]`), the document index
(`metadata["id_map"]`), and the logical clock backing `time.time()`. -/
structure VSState where
  index : List Vec
  chunks : List ChunkRec
  id_map : PyDict (List Nat)
  clock : Nat
deriving DecidableEq

/-- A freshly initialized store (no index file on disk). -/
def initState : VSState := ⟨[], [], [], 0⟩

/-- Model of `OllamaEmbeddings.get_embedding`: on provider success return the
embedding; on any exception (error or timeout) silently return a 768-dim
zero vector as fallback. -/
def get_embedding (provider : PyStr → Option Vec) (text : PyStr) : Vec :=
  match provider text with
  | some v => v
  | none => List.replicate 768 0

/-- Model of `OllamaEmbeddings.get_embeddings`: one provider call per text. -/
def get_embeddings (provider : PyStr → Option Vec) (texts : List PyStr) : List Vec :=
  texts.map (get_embedding provider)

/-- The chunk list `add_text` indexes: paragraph chunks, or the whole content
verbatim as a single chunk when chunking yields nothing. -/
def chunksForAdd (content : PyStr) : List PyStr :=
  let chunks := chunk_by_paragraph content 50 1000
  if chunks.isEmpty then [content] else chunks

/-- The indexing loop of `VectorStore.add_text`: for the `i`-th
(chunk, embedding) pair, normalize and append the vector to the FAISS index,
and append the catalog record at slot `len(chunks)`, stamping `created_at`
with the current clock. -/
def addChunksLoop (nrm : Vec → Vec) (text_id : PyStr) (md : PyDict Val) :
    VSState → List (PyStr × Vec) → Nat → VSState × List Nat
  | s, [], _ => (s, [])
  | s, (chunk, embedding) :: rest, i =>
    let ci := s.chunks.length
    let s' : VSState :=
      { s with
        index := s.index ++ [nrm embedding],
        chunks := s.chunks ++ [⟨ci, some text_id, i, chunk, md, s.clock⟩],
        clock := s.clock + 1 }
    let out := addChunksLoop nrm text_id md s' rest (i + 1)
    (out.1, ci :: out.2)

/-- Model of `VectorStore.add_text(text_id, content, metadata)`: chunk, embed, append
each pair to index and catalog, then overwrite `id_map[text_id]` with the new
slot list.  Returns the new slots. -/
def add_text (nrm : Vec → Vec) (provider : PyStr → Option Vec) (s : VSState)
    (text_id : PyStr) (content : PyStr) (metadata : Option (PyDict Val)) :
    VSState × List Nat :=
  let chunks := chunksForAdd content
  let embeddings := get_embeddings provider chunks
  let md := metadata.getD []
  let out := addChunksLoop nrm text_id md s (chunks.zip embeddings) 0
  ({ out.1 with id_map := alSet out.1.id_map text_id out.2 }, out.2)

/-- One step of the tombstoning loop of `VectorStore.update_text`: if the
slot is inside the catalog, set its `text_id` to `None`. -/
def tombstoneStep (cs : List ChunkRec) (idx : Nat) : List ChunkRec :=
  match cs[idx]? with
  | some c => cs.set idx { c with text_id := none }
  | none => cs

/-- The tombstoning loop of `VectorStore.update_text` over the old slots. -/
def tombstoneAll (chunks : List ChunkRec) (idxs : List Nat) : List ChunkRec :=
  idxs.foldl tombstoneStep chunks

/-- One iteration of the metadata-merge loop of `VectorStore.update_text`:
if the slot is inside the catalog and still owned by `text_id`, shallow-merge
`m` into its metadata and stamp `updated_at` with a fresh clock value. -/
def mergeStep (text_id : PyStr) (m : PyDict Val) (p : List ChunkRec × Nat) (idx : Nat) :
    List ChunkRec × Nat :=
  match p.1[idx]? with
  | some c =>
    if c.text_id = some text_id then
      (p.1.set idx
        { c with metadata := alSet (alUpdate c.metadata m) "updated_at".data (Val.num p.2) },
       p.2 + 1)
    else p
  | none => p

/-- The metadata-merge loop of `VectorStore.update_text` over the mapped
slots, threading the catalog and the clock. -/
def mergeRun (text_id : PyStr) (m : PyDict Val) (cs : List ChunkRec) (clk : Nat)
    (idxs : List Nat) : List ChunkRec × Nat :=
  idxs.foldl (mergeStep text_id m) (cs, clk)

/-- Model of `VectorStore.update_text(text_id, content, metadata)`: `False` if
`text_id` is unmapped; with content, re-add under fresh slots then tombstone
the previously mapped slots; with metadata only, merge into the mapped slots
still owned by `text_id`; with neither, `False`. -/
def update_text (nrm : Vec → Vec) (provider : PyStr → Option Vec) (s : VSState)
    (text_id : PyStr) (content : Option PyStr) (metadata : Option (PyDict Val)) :
    VSState × Bool :=
  match alGet s.id_map text_id with
  | none => (s, false)
  | some old_chunk_indices =>
    match content with
    | some c =>
      let s1 := (add_text nrm provider s text_id c metadata).1
      ({ s1 with chunks := tombstoneAll s1.chunks old_chunk_indices }, true)
    | none =>
      match metadata with
      | some m =>
        let out := mergeRun text_id m s.chunks s.clock old_chunk_indices
        ({ s with chunks := out.1, clock := out.2 }, true)
      | none => (s, false)

/-- Python list indexing `l[i]` including negative indices; `none` is an
`IndexError`. -/
def pyGet {α : Type} (l : List α) (i : Int) : Option α :=
  if 0 ≤ i then l[i.toNat]?
  else if 0 ≤ (l.length : Int) + i then l[((l.length : Int) + i).toNat]?
  else none

/-- One row of the list returned by `VectorStore.search`. -/
structure SearchResult where
  id : PyStr
  content : PyStr
  metadata : PyDict Val
  score : ℚ
  chunk_index : Int
deriving DecidableEq

/-- The result-collection loop of `VectorStore.search` over the FAISS rows
`(idx, dist)`: skip `idx ≥ len(chunks)`, resolve `chunks[idx]` by Python
indexing (an out-of-range access — in particular `chunks[-1]` on an empty
catalog — is an `IndexError`, returned as `none`), skip tombstoned chunks and
already-seen text ids, record the row distance as `score`, and stop once
`limit` results are collected. -/
def searchLoop (chunks : List ChunkRec) (limit : Nat) :
    List (Int × ℚ) → List PyStr → List SearchResult → Option (List SearchResult)
  | [], _, results => some results
  | (idx, dist) :: rest, seen, results =>
    if (chunks.length : Int) ≤ idx then searchLoop chunks limit rest seen results
    else
      match pyGet chunks idx with
      | none => none
      | some chunk =>
        match chunk.text_id with
        | none => searchLoop chunks limit rest seen results
        | some tid =>
          if tid ∈ seen then searchLoop chunks limit rest seen results
          else
            let results' := results ++ [⟨tid, chunk.content, chunk.metadata, dist, idx⟩]
            if limit ≤ results'.length then some results'
            else searchLoop chunks limit rest (tid :: seen) results'

/-- Model of `VectorStore.search(query, limit)`: embed and normalize the query, fetch
`limit * 3` nearest rows from FAISS, and run the collection loop. -/
def search (nrm : Vec → Vec) (provider : PyStr → Option Vec) (s : VSState)
    (query : PyStr) (limit : Nat) : Option (List SearchResult) :=
  let qv := nrm (get_embedding provider query)
  let hits := faissSearch s.index qv (limit * 3)
  searchLoop s.chunks limit hits [] []

/-- Model of `VectorStore.get_all_chunks_for_text(text_id)`: the records at the
currently mapped slots that are still owned by `text_id`. -/
def get_all_chunks_for_text (s : VSState) (text_id : PyStr) : List ChunkRec :=
  match alGet s.id_map text_id with
  | none => []
  | some chunk_indices =>
    chunk_indices.filterMap (fun idx =>
      match s.chunks[idx]? with
      | some c => if c.text_id = some text_id then some c else none
      | none => none)

/-- The mutating entry points, for reachability over operation sequences. -/
inductive Op where
  | add (text_id : PyStr) (content : PyStr) (metadata : Option (PyDict Val))
  | update (text_id : PyStr) (content : Option PyStr) (metadata : Option (PyDict Val))

/-- Apply one mutating operation. -/
def applyOp (nrm : Vec → Vec) (provider : PyStr → Option Vec) (s : VSState) : Op → VSState
  | .add tid c m => (add_text nrm provider s tid c m).1
  | .update tid c m => (update_text nrm provider s tid c m).1

/-- The store state reached from a fresh store by a sequence of add/update
operations. -/
def runOps (nrm : Vec → Vec) (provider : PyStr → Option Vec) (ops : List Op) : VSState :=
  ops.foldl (applyOp nrm provider) initState

/-- Identity normalization: `faiss.normalize_L2` is the identity on unit
vectors and on the zero vector, the only vectors used in concrete instances. -/
def nrmId : Vec → Vec := id

/-- A concrete deterministic provider used for concrete instances: unit
embeddings separating the strings "alpha" and "beta". -/
def provAB : PyStr → Option Vec := fun t =>
  if t = "beta".data then some [0, 1] else some [1, 0]

/-- A provider whose calls always fail (error / timeout path). -/
def provFail : PyStr → Option Vec := fun _ => none

/-- Proof-side mirror of `searchLoop` that, instead of returning, reports
whether the loop returned (`halt`) or ran off the end of the rows (`cont`),
exposing the final `seen`/`results` accumulators. -/
inductive PhaseRes where
  | halt (r : Option (List SearchResult))
  | cont (seen : List PyStr) (results : List SearchResult)
deriving DecidableEq

/-- One-to-one image of `searchLoop` as a `PhaseRes` (see
`searchLoop_eq_phase`); used to reason about the loop compositionally over
`hits` prefixes. -/
def searchPhase (chunks : List ChunkRec) (limit : Nat) :
    List (Int × ℚ) → List PyStr → List SearchResult → PhaseRes
  | [], seen, results => .cont seen results
  | (idx, dist) :: rest, seen, results =>
    if (chunks.length : Int) ≤ idx then searchPhase chunks limit rest seen results
    else
      match pyGet chunks idx with
      | none => .halt none
      | some chunk =>
        match chunk.text_id with
        | none => searchPhase chunks limit rest seen results
        | some tid =>
          if tid ∈ seen then searchPhase chunks limit rest seen results
          else
            let results' := results ++ [⟨tid, chunk.content, chunk.metadata, dist, idx⟩]
            if limit ≤ results'.length then .halt (some results')
            else searchPhase chunks limit rest (tid :: seen) results'

/-- A search result is well-formed w.r.t. a catalog and a FAISS row list:
its (label, score) pair is one of the rows, and the label resolves (by
Python indexing) to a non-tombstoned catalog record with matching fields. -/
def ResOk (chunks : List ChunkRec) (hits : List (Int × ℚ)) (r : SearchResult) : Prop :=
  (r.chunk_index, r.score) ∈ hits ∧
  ∃ c, pyGet chunks r.chunk_index = some c ∧ c.text_id = some r.id ∧
    r.content = c.content ∧ r.metadata = c.metadata

/-- The well-formedness of the block of results appended by one run of the
collection loop: every result is `ResOk` with an id not yet seen, ids are
pairwise distinct, and the scores are a subsequence of the row distances (in
row order). -/
def NewOk (chunks : List ChunkRec) (hits : List (Int × ℚ)) (seen : List PyStr)
    (new : List SearchResult) : Prop :=
  (∀ r ∈ new, ResOk chunks hits r ∧ r.id ∉ seen) ∧
  (new.map (fun r => r.id)).Nodup ∧
  (new.map (fun r => r.score)).Sublist (hits.map (fun h => h.2))

/-- The catalog records produced by one `add_text` call, starting at slot
`slot`, chunk number `i`, and clock `clock`. -/
def mkRecs (tid : PyStr) (md : PyDict Val) : List PyStr → Nat → Nat → Nat → List ChunkRec
  | [], _, _, _ => []
  | chunk :: rest, slot, i, clock =>
    ⟨slot, some tid, i, chunk, md, clock⟩ :: mkRecs tid md rest (slot + 1) (i + 1) (clock + 1)

/-- Invariants of every reachable store state: the FAISS index and the
catalog are index-aligned (equal length, `chunk_index` = position), the
document index maps only to in-range, duplicate-free slot lists, and every
recorded timestamp is in the clock's past. -/
structure StoreInv (s : VSState) : Prop where
  align : s.index.length = s.chunks.length
  cidx : ∀ (i : Nat) (c : ChunkRec), s.chunks[i]? = some c → c.chunk_index = i
  idmap : ∀ p ∈ s.id_map, ∀ i ∈ p.2, i < s.chunks.length
  imnd : ∀ p ∈ s.id_map, List.Nodup p.2
  clk : ∀ (i : Nat) (c : ChunkRec), s.chunks[i]? = some c → c.created_at < s.clock

/-- A piece is boundary-clean: non-empty with non-whitespace first and last
characters.  Stripped paragraphs and the pieces of `sentSplit` on them are
boundary-clean, which is what makes the `strip()` calls inside
`chunk_by_sentence` no-ops. -/
def goodPiece (p : PyStr) : Prop :=
  p ≠ [] ∧ (∀ c, p.head? = some c → pyIsSpace c = false) ∧
    (∀ c, p.getLast? = some c → pyIsSpace c = false)

/-- A concrete deterministic provider distinguishing three contents by unit
embeddings, used for the update counterexamples. -/
def provMulti : PyStr → Option Vec := fun t =>
  if t = "alpha".data then some [1, 0]
  else if t = "beta".data then some [0, 1]
  else if t = "gamma".data then some [-1, 0]
  else some [0, -1]

theorem qAdd_eq (a b : ℚ) : qAdd a b = a + b := by
  rw [qAdd, Rat.add_def']

theorem qSub_eq (a b : ℚ) : qSub a b = a - b := by
  rw [qSub, Rat.sub_def']

theorem qMul_eq (a b : ℚ) : qMul a b = a * b := by
  rw [qMul, Rat.mul_def, Rat.normalize_eq_mkRat]

/-- Lemma: `sqDist` is the sum of squared component differences. -/
theorem sqDist_eq (a b : Vec) :
    sqDist a b = (List.zipWith (fun x y => (x - y) ^ 2) a b).sum := by
  rw [sqDist]
  induction a generalizing b with
  | nil => simp
  | cons x xs ih =>
    cases b with
    | nil => simp
    | cons y ys =>
      rw [List.zipWith_cons_cons, List.zipWith_cons_cons, List.foldr_cons, List.sum_cons,
        ih, qAdd_eq, qMul_eq, qSub_eq, pow_two]

theorem alGet_alSet_self {α : Type} (d : PyDict α) (k : PyStr) (v : α) :
    alGet (alSet d k v) k = some v := by
  induction d with
  | nil => simp [alSet, alGet]
  | cons p t ih =>
    rcases p with ⟨k', v'⟩
    rw [alSet]
    by_cases h : k' = k
    · simp [h, alGet]
    · rw [if_neg h, alGet, if_neg h]
      exact ih

theorem alGet_alSet_ne {α : Type} (d : PyDict α) (k k' : PyStr) (v : α) (h : k ≠ k') :
    alGet (alSet d k v) k' = alGet d k' := by
  induction d with
  | nil => simp [alSet, alGet, h]
  | cons p t ih =>
    rcases p with ⟨k0, v0⟩
    rw [alSet]
    by_cases h0 : k0 = k
    · rw [if_pos h0, alGet, if_neg h, alGet, h0, if_neg h]
    · rw [if_neg h0, alGet, alGet]
      by_cases h1 : k0 = k'
      · rw [if_pos h1, if_pos h1]
      · rw [if_neg h1, if_neg h1]
        exact ih

theorem alUpdate_nil {α : Type} (d : PyDict α) : alUpdate d [] = d := rfl

theorem alUpdate_cons {α : Type} (d : PyDict α) (k : PyStr) (v : α) (m : PyDict α) :
    alUpdate d ((k, v) :: m) = alUpdate (alSet d k v) m := rfl

theorem alGet_alUpdate_notmem {α : Type} (m : PyDict α) :
    ∀ (d : PyDict α) (k : PyStr), k ∉ m.map Prod.fst → alGet (alUpdate d m) k = alGet d k := by
  induction m with
  | nil => intro d k _; rfl
  | cons p t ih =>
    intro d k hk
    rcases p with ⟨k0, v0⟩
    have hne : k0 ≠ k := by
      intro h
      exact hk (by rw [List.map_cons, h]; exact List.mem_cons_self k _)
    rw [alUpdate_cons, ih (alSet d k0 v0) k (fun h => hk (List.mem_cons_of_mem _ h))]
    exact alGet_alSet_ne d k0 k v0 hne

theorem alGet_alUpdate_mem {α : Type} (m : PyDict α) :
    ∀ (d : PyDict α) (k : PyStr) (v : α), (m.map Prod.fst).Nodup →
      alGet m k = some v → alGet (alUpdate d m) k = some v := by
  induction m with
  | nil => intro d k v _ h; exact absurd h (by simp [alGet])
  | cons p t ih =>
    intro d k v hnd hget
    rcases p with ⟨k0, v0⟩
    rw [alUpdate_cons]
    rw [alGet] at hget
    by_cases h0 : k0 = k
    · rw [if_pos h0] at hget
      have hk : k ∉ t.map Prod.fst := by
        rw [List.map_cons, List.nodup_cons] at hnd
        exact h0 ▸ hnd.1
      rw [alGet_alUpdate_notmem t _ k hk, h0, alGet_alSet_self]
      exact hget
    · rw [if_neg h0] at hget
      exact ih _ k v (by rw [List.map_cons, List.nodup_cons] at hnd; exact hnd.2) hget

theorem pyGet_ofNat {α : Type} (l : List α) (n : Nat) :
    pyGet l (n : Int) = l[n]? := by
  rw [pyGet, if_pos (Int.ofNat_nonneg n)]
  simp

theorem pyGet_none_of_len_le {α : Type} (l : List α) (i : Int) (h : (l.length : Int) ≤ i) :
    pyGet l i = none := by
  have h0 : 0 ≤ i := le_trans (Int.ofNat_nonneg _) h
  rw [pyGet, if_pos h0]
  refine List.getElem?_eq_none ?_
  have := Int.toNat_le_toNat h
  simpa using this

theorem pyGet_neg_one {α : Type} (l : List α) (h : l ≠ []) :
    pyGet l (-1) = l[l.length - 1]? := by
  have hl : 0 < l.length := List.length_pos.mpr h
  rw [pyGet]
  rw [if_neg (by decide)]
  rw [if_pos]
  · congr 1
    omega
  · omega

theorem pyGet_nil_neg {α : Type} : pyGet ([] : List α) (-1) = none := by
  rw [pyGet]
  rw [if_neg (by decide), if_neg (by simp)]

theorem mkRecs_length (tid : PyStr) (md : PyDict Val) :
    ∀ (cs : List PyStr) (slot i clock : Nat),
      (mkRecs tid md cs slot i clock).length = cs.length := by
  intro cs
  induction cs with
  | nil => intro slot i clock; rfl
  | cons c cs ih => intro slot i clock; rw [mkRecs, List.length_cons, List.length_cons, ih]

theorem mkRecs_getElem? (tid : PyStr) (md : PyDict Val) :
    ∀ (cs : List PyStr) (slot i clock j : Nat),
      (mkRecs tid md cs slot i clock)[j]? =
        (cs[j]?).map (fun c => ⟨slot + j, some tid, i + j, c, md, clock + j⟩) := by
  intro cs
  induction cs with
  | nil => intro slot i clock j; simp [mkRecs]
  | cons c cs ih =>
    intro slot i clock j
    cases j with
    | zero => simp [mkRecs]
    | succ n =>
      rw [mkRecs, List.getElem?_cons_succ, List.getElem?_cons_succ, ih]
      have e1 : slot + 1 + n = slot + (n + 1) := by omega
      have e2 : i + 1 + n = i + (n + 1) := by omega
      have e3 : clock + 1 + n = clock + (n + 1) := by omega
      rw [e1, e2, e3]

theorem mkRecs_mem (tid : PyStr) (md : PyDict Val) :
    ∀ (cs : List PyStr) (slot i clock : Nat) (r : ChunkRec),
      r ∈ mkRecs tid md cs slot i clock →
        r.text_id = some tid ∧ r.metadata = md ∧
        slot ≤ r.chunk_index ∧ r.chunk_index < slot + cs.length ∧
        clock ≤ r.created_at ∧ r.created_at < clock + cs.length := by
  intro cs
  induction cs with
  | nil => intro slot i clock r hr; exact absurd hr (List.not_mem_nil r)
  | cons c cs ih =>
    intro slot i clock r hr
    rw [mkRecs] at hr
    rcases List.mem_cons.1 hr with h | h
    · subst h
      refine ⟨rfl, rfl, Nat.le_refl _, ?_, Nat.le_refl _, ?_⟩
      · show slot < slot + (c :: cs).length
        simp only [List.length_cons]
        omega
      · show clock < clock + (c :: cs).length
        simp only [List.length_cons]
        omega
    · obtain ⟨h1, h2, h3, h4, h5, h6⟩ := ih (slot + 1) (i + 1) (clock + 1) r h
      refine ⟨h1, h2, by omega, ?_, by omega, ?_⟩
      · simp only [List.length_cons]
        omega
      · simp only [List.length_cons]
        omega

theorem addChunksLoop_zip (nrm : Vec → Vec) (tid : PyStr) (md : PyDict Val) (f : PyStr → Vec) :
    ∀ (cs : List PyStr) (s : VSState) (i : Nat),
      addChunksLoop nrm tid md s (cs.zip (cs.map f)) i =
        (⟨s.index ++ cs.map (fun c => nrm (f c)),
          s.chunks ++ mkRecs tid md cs s.chunks.length i s.clock,
          s.id_map, s.clock + cs.length⟩,
         List.range' s.chunks.length cs.length) := by
  intro cs
  induction cs with
  | nil =>
    intro s i
    simp [addChunksLoop, mkRecs]
  | cons c cs ih =>
    intro s i
    rw [List.map_cons, List.zip_cons_cons, addChunksLoop]
    rw [ih]
    dsimp only
    rw [mkRecs]
    simp only [List.length_cons, List.length_append, List.length_singleton, List.append_assoc,
      List.singleton_append]
    rw [List.range'_succ]
    simp only [Prod.mk.injEq, VSState.mk.injEq, List.cons.injEq]
    refine ⟨⟨?_, ?_, ?_, ?_⟩, ?_, ?_⟩ <;> first | trivial | omega

theorem add_text_spec (nrm : Vec → Vec) (provider : PyStr → Option Vec) (s : VSState)
    (tid : PyStr) (content : PyStr) (md : Option (PyDict Val)) :
    add_text nrm provider s tid content md =
      (⟨s.index ++ (chunksForAdd content).map (fun c => nrm (get_embedding provider c)),
        s.chunks ++ mkRecs tid (md.getD []) (chunksForAdd content) s.chunks.length 0 s.clock,
        alSet s.id_map tid (List.range' s.chunks.length (chunksForAdd content).length),
        s.clock + (chunksForAdd content).length⟩,
       List.range' s.chunks.length (chunksForAdd content).length) := by
  rw [add_text, get_embeddings]
  rw [addChunksLoop_zip nrm tid (md.getD []) (get_embedding provider) (chunksForAdd content) s 0]

theorem chunksForAdd_ne_nil (content : PyStr) : chunksForAdd content ≠ [] := by
  rw [chunksForAdd]
  rcases h : chunk_by_paragraph content 50 1000 with _ | ⟨c, cs⟩
  · simp
  · simp

theorem tombstoneAll_length : ∀ (idxs : List Nat) (cs : List ChunkRec),
    (tombstoneAll cs idxs).length = cs.length := by
  intro idxs
  induction idxs with
  | nil => intro cs; rfl
  | cons idx rest ih =>
    intro cs
    have hstep : (tombstoneStep cs idx).length = cs.length := by
      rw [tombstoneStep]
      rcases h : cs[idx]? with _ | c
      · rfl
      · rw [List.length_set]
    rw [tombstoneAll, List.foldl_cons, ← tombstoneAll, ih, hstep]

theorem tombstoneStep_getElem? (cs : List ChunkRec) (idx j : Nat) :
    (tombstoneStep cs idx)[j]? =
      if j = idx then (cs[j]?).map (fun c => { c with text_id := none }) else cs[j]? := by
  rw [tombstoneStep]
  rcases h : cs[idx]? with _ | c
  · by_cases hj : j = idx
    · subst hj; rw [if_pos rfl, h]; rfl
    · rw [if_neg hj]
  · by_cases hj : j = idx
    · subst hj
      have hlt : j < cs.length := by
        by_contra hge
        rw [List.getElem?_eq_none (Nat.le_of_not_lt hge)] at h
        exact Option.noConfusion h
      rw [if_pos rfl, List.getElem?_set_self hlt, h]
      rfl
    · rw [if_neg hj, List.getElem?_set_ne (fun e => hj e.symm)]

theorem tombstoneAll_getElem? : ∀ (idxs : List Nat) (cs : List ChunkRec) (j : Nat),
    (tombstoneAll cs idxs)[j]? =
      if j ∈ idxs then (cs[j]?).map (fun c => { c with text_id := none }) else cs[j]? := by
  intro idxs
  induction idxs with
  | nil => intro cs j; rw [if_neg (List.not_mem_nil j)]; rfl
  | cons idx rest ih =>
    intro cs j
    rw [tombstoneAll, List.foldl_cons, ← tombstoneAll, ih, tombstoneStep_getElem?]
    by_cases hr : j ∈ rest
    · rw [if_pos hr, if_pos (List.mem_cons_of_mem idx hr)]
      by_cases hj : j = idx
      · rw [if_pos hj]
        rcases hc : cs[j]? with _ | c <;> rfl
      · rw [if_neg hj]
    · rw [if_neg hr]
      by_cases hj : j = idx
      · rw [if_pos hj, if_pos (by rw [List.mem_cons]; exact Or.inl hj)]
      · rw [if_neg hj, if_neg (by rw [List.mem_cons]; rintro (h | h); exact hj h; exact hr h)]

theorem mergeRun_nil (tid : PyStr) (m : PyDict Val) (cs : List ChunkRec) (clk : Nat) :
    mergeRun tid m cs clk [] = (cs, clk) := rfl

theorem mergeRun_cons (tid : PyStr) (m : PyDict Val) (cs : List ChunkRec) (clk : Nat)
    (idx : Nat) (rest : List Nat) :
    mergeRun tid m cs clk (idx :: rest) =
      mergeRun tid m (mergeStep tid m (cs, clk) idx).1 (mergeStep tid m (cs, clk) idx).2 rest := by
  rw [mergeRun, List.foldl_cons, mergeRun]

theorem mergeRun_spec (tid : PyStr) (m : PyDict Val) :
    ∀ (idxs : List Nat) (cs : List ChunkRec) (clk : Nat), idxs.Nodup →
      (mergeRun tid m cs clk idxs).1.length = cs.length ∧
      clk ≤ (mergeRun tid m cs clk idxs).2 ∧
      (∀ j, j ∉ idxs → (mergeRun tid m cs clk idxs).1[j]? = cs[j]?) ∧
      (∀ j ∈ idxs, ∀ c, cs[j]? = some c →
        (c.text_id = some tid →
          ∃ t : Nat, clk ≤ t ∧ (mergeRun tid m cs clk idxs).1[j]? =
            some { c with
              metadata := alSet (alUpdate c.metadata m) "updated_at".data (Val.num (t : ℚ)) }) ∧
        (c.text_id ≠ some tid → (mergeRun tid m cs clk idxs).1[j]? = some c)) := by
  intro idxs
  induction idxs with
  | nil =>
    intro cs clk _
    exact ⟨rfl, Nat.le_refl _, fun j _ => rfl, fun j hj => absurd hj (List.not_mem_nil j)⟩
  | cons idx rest ih =>
    intro cs clk hnd
    rw [List.nodup_cons] at hnd
    rw [mergeRun_cons]
    rcases hc : cs[idx]? with _ | c
    · have hstep : mergeStep tid m (cs, clk) idx = (cs, clk) := by
        rw [mergeStep]; dsimp only; rw [hc]
      rw [hstep]
      obtain ⟨l1, l2, l3, l4⟩ := ih cs clk hnd.2
      refine ⟨l1, l2, fun j hj => l3 j (fun h => hj (List.mem_cons_of_mem _ h)), ?_⟩
      intro j hj c0 hc0
      rcases List.mem_cons.1 hj with h | h
      · subst h; rw [hc] at hc0; exact Option.noConfusion hc0
      · exact l4 j h c0 hc0
    · by_cases hti : c.text_id = some tid
      · have hstep : mergeStep tid m (cs, clk) idx =
            (cs.set idx { c with
              metadata := alSet (alUpdate c.metadata m) "updated_at".data (Val.num (clk : ℚ)) },
             clk + 1) := by
          rw [mergeStep]; dsimp only; rw [hc]; dsimp only; rw [if_pos hti]
        rw [hstep]
        obtain ⟨l1, l2, l3, l4⟩ := ih _ (clk + 1) hnd.2
        have hlen : ∀ j, j ≠ idx →
            (cs.set idx { c with
              metadata := alSet (alUpdate c.metadata m) "updated_at".data (Val.num (clk : ℚ)) })[j]? =
            cs[j]? := fun j hj => List.getElem?_set_ne (fun e => hj e.symm)
        have hidxlt : idx < cs.length := by
          by_contra hge
          rw [List.getElem?_eq_none (Nat.le_of_not_lt hge)] at hc
          exact Option.noConfusion hc
        refine ⟨l1.trans (List.length_set _ _ _), le_trans (Nat.le_succ clk) l2, ?_, ?_⟩
        · intro j hj
          have hji : j ≠ idx := fun e => hj (e ▸ List.mem_cons_self idx rest)
          rw [l3 j (fun h => hj (List.mem_cons_of_mem _ h)), hlen j hji]
        · intro j hj c0 hc0
          rcases List.mem_cons.1 hj with h | h
          · subst h
            rw [hc] at hc0
            injection hc0 with hc0
            subst hc0
            constructor
            · intro _
              refine ⟨clk, Nat.le_refl _, ?_⟩
              rw [l3 j hnd.1, List.getElem?_set_self hidxlt]
            · intro hne; exact absurd hti hne
          · have hji : j ≠ idx := fun e => hnd.1 (e ▸ h)
            obtain ⟨g1, g2⟩ := l4 j h c0 (by rw [hlen j hji]; exact hc0)
            constructor
            · intro ht
              obtain ⟨t, ht1, ht2⟩ := g1 ht
              exact ⟨t, le_trans (Nat.le_succ clk) ht1, ht2⟩
            · exact g2
      · have hstep : mergeStep tid m (cs, clk) idx = (cs, clk) := by
          rw [mergeStep]; dsimp only; rw [hc]; dsimp only; rw [if_neg hti]
        rw [hstep]
        obtain ⟨l1, l2, l3, l4⟩ := ih cs clk hnd.2
        refine ⟨l1, l2, fun j hj => l3 j (fun h => hj (List.mem_cons_of_mem _ h)), ?_⟩
        intro j hj c0 hc0
        rcases List.mem_cons.1 hj with h | h
        · subst h
          rw [hc] at hc0
          injection hc0 with hc0
          subst hc0
          refine ⟨fun ht => absurd ht hti, fun _ => ?_⟩
          rw [l3 j hnd.1]
          exact hc
        · exact l4 j h c0 hc0

theorem mem_alSet {α : Type} : ∀ (d : PyDict α) (k : PyStr) (v : α) (p : PyStr × α),
    p ∈ alSet d k v → p = (k, v) ∨ p ∈ d := by
  intro d
  induction d with
  | nil => intro k v p hp; rw [alSet] at hp; exact Or.inl (List.mem_singleton.1 hp)
  | cons q t ih =>
    intro k v p hp
    rcases q with ⟨k0, v0⟩
    rw [alSet] at hp
    by_cases h0 : k0 = k
    · rw [if_pos h0] at hp
      rcases List.mem_cons.1 hp with h | h
      · exact Or.inl h
      · exact Or.inr (List.mem_cons_of_mem _ h)
    · rw [if_neg h0] at hp
      rcases List.mem_cons.1 hp with h | h
      · exact Or.inr (h ▸ List.mem_cons_self _ _)
      · rcases ih k v p h with h1 | h1
        · exact Or.inl h1
        · exact Or.inr (List.mem_cons_of_mem _ h1)

theorem alGet_mem {α : Type} : ∀ (d : PyDict α) (k : PyStr) (v : α),
    alGet d k = some v → (k, v) ∈ d := by
  intro d
  induction d with
  | nil => intro k v h; exact Option.noConfusion h
  | cons q t ih =>
    intro k v h
    rcases q with ⟨k0, v0⟩
    rw [alGet] at h
    by_cases h0 : k0 = k
    · rw [if_pos h0] at h
      injection h with h
      subst h0; subst h
      exact List.mem_cons_self _ _
    · rw [if_neg h0] at h
      exact List.mem_cons_of_mem _ (ih k v h)

theorem storeInv_init : StoreInv initState where
  align := rfl
  cidx := fun i c h => by
    rw [initState] at h
    exact Option.noConfusion ((List.getElem?_nil (n := i)) ▸ h)
  idmap := fun p hp => absurd hp (List.not_mem_nil p)
  imnd := fun p hp => absurd hp (List.not_mem_nil p)
  clk := fun i c h => by
    rw [initState] at h
    exact Option.noConfusion ((List.getElem?_nil (n := i)) ▸ h)

theorem storeInv_add (nrm : Vec → Vec) (provider : PyStr → Option Vec) (s : VSState)
    (tid : PyStr) (content : PyStr) (md : Option (PyDict Val)) (h : StoreInv s) :
    StoreInv (add_text nrm provider s tid content md).1 := by
  rw [add_text_spec]
  dsimp only
  refine ⟨?_, ?_, ?_, ?_, ?_⟩
  · rw [List.length_append, List.length_append, List.length_map,
      mkRecs_length, h.align]
  · intro i c hc
    by_cases hi : i < s.chunks.length
    · rw [List.getElem?_append_left hi] at hc
      exact h.cidx i c hc
    · rw [List.getElem?_append_right (Nat.le_of_not_lt hi), mkRecs_getElem?] at hc
      rcases he : (chunksForAdd content)[i - s.chunks.length]? with _ | ch
      · rw [he] at hc; exact Option.noConfusion hc
      · rw [he] at hc
        injection hc with hc
        subst hc
        show s.chunks.length + (i - s.chunks.length) = i
        omega
  · intro p hp i hi
    rw [List.length_append, mkRecs_length]
    rcases mem_alSet _ _ _ _ hp with he | he
    · subst he
      rcases List.mem_range'_1.1 hi with ⟨h1, h2⟩
      omega
    · exact Nat.lt_of_lt_of_le (h.idmap p he i hi) (Nat.le_add_right _ _)
  · intro p hp
    rcases mem_alSet _ _ _ _ hp with he | he
    · subst he
      exact List.nodup_range' _ _
    · exact h.imnd p he
  · intro i c hc
    by_cases hi : i < s.chunks.length
    · rw [List.getElem?_append_left hi] at hc
      exact Nat.lt_of_lt_of_le (h.clk i c hc) (Nat.le_add_right _ _)
    · rw [List.getElem?_append_right (Nat.le_of_not_lt hi), mkRecs_getElem?] at hc
      rcases he : (chunksForAdd content)[i - s.chunks.length]? with _ | ch
      · rw [he] at hc; exact Option.noConfusion hc
      · rw [he] at hc
        injection hc with hc
        subst hc
        have hlt : i - s.chunks.length < (chunksForAdd content).length := by
          by_contra hge
          rw [List.getElem?_eq_none (Nat.le_of_not_lt hge)] at he
          exact Option.noConfusion he
        show s.clock + (i - s.chunks.length) < s.clock + (chunksForAdd content).length
        omega

theorem storeInv_update (nrm : Vec → Vec) (provider : PyStr → Option Vec) (s : VSState)
    (tid : PyStr) (content : Option PyStr) (md : Option (PyDict Val)) (h : StoreInv s) :
    StoreInv (update_text nrm provider s tid content md).1 := by
  rw [update_text]
  rcases hg : alGet s.id_map tid with _ | old
  · exact h
  · rcases content with _ | c
    · rcases md with _ | m
      · exact h
      · have hnd : old.Nodup := h.imnd (tid, old) (alGet_mem _ _ _ hg)
        obtain ⟨l1, l2, l3, l4⟩ := mergeRun_spec tid m old s.chunks s.clock hnd
        dsimp only
        refine ⟨?_, ?_, ?_, ?_, ?_⟩
        · rw [l1, h.align]
        · intro i c hc
          rcases ho : s.chunks[i]? with _ | c0
          · have hge : s.chunks.length ≤ i := List.getElem?_eq_none_iff.1 ho
            rw [List.getElem?_eq_none (l1 ▸ hge)] at hc
            exact Option.noConfusion hc
          · by_cases hi : i ∈ old
            · by_cases hti : c0.text_id = some tid
              · obtain ⟨t, _, ht2⟩ := ((l4 i hi c0 ho).1) hti
                rw [ht2] at hc
                injection hc with hc
                subst hc
                exact h.cidx i c0 ho
              · rw [(l4 i hi c0 ho).2 hti] at hc
                injection hc with hc
                subst hc
                exact h.cidx i c0 ho
            · rw [l3 i hi] at hc
              exact h.cidx i c hc
        · intro p hp i hi
          rw [l1]
          exact h.idmap p hp i hi
        · exact h.imnd
        · intro i c hc
          rcases ho : s.chunks[i]? with _ | c0
          · have hge : s.chunks.length ≤ i := List.getElem?_eq_none_iff.1 ho
            rw [List.getElem?_eq_none (l1 ▸ hge)] at hc
            exact Option.noConfusion hc
          · by_cases hi : i ∈ old
            · by_cases hti : c0.text_id = some tid
              · obtain ⟨t, _, ht2⟩ := ((l4 i hi c0 ho).1) hti
                rw [ht2] at hc
                injection hc with hc
                subst hc
                exact Nat.lt_of_lt_of_le (h.clk i c0 ho) l2
              · rw [(l4 i hi c0 ho).2 hti] at hc
                injection hc with hc
                subst hc
                exact Nat.lt_of_lt_of_le (h.clk i c0 ho) l2
            · rw [l3 i hi] at hc
              exact Nat.lt_of_lt_of_le (h.clk i c hc) l2
    · have hinv := storeInv_add nrm provider s tid c md h
      dsimp only
      refine ⟨?_, ?_, ?_, ?_, ?_⟩
      · rw [tombstoneAll_length, hinv.align]
      · intro i c0 hc
        rw [tombstoneAll_getElem?] at hc
        by_cases hi : i ∈ old
        · rw [if_pos hi] at hc
          rcases ho : (add_text nrm provider s tid c md).1.chunks[i]? with _ | c1
          · rw [ho] at hc; exact Option.noConfusion hc
          · rw [ho] at hc
            injection hc with hc
            subst hc
            exact hinv.cidx i c1 ho
        · rw [if_neg hi] at hc
          exact hinv.cidx i c0 hc
      · intro p hp i hi
        rw [tombstoneAll_length]
        exact hinv.idmap p hp i hi
      · exact hinv.imnd
      · intro i c0 hc
        rw [tombstoneAll_getElem?] at hc
        by_cases hi : i ∈ old
        · rw [if_pos hi] at hc
          rcases ho : (add_text nrm provider s tid c md).1.chunks[i]? with _ | c1
          · rw [ho] at hc; exact Option.noConfusion hc
          · rw [ho] at hc
            injection hc with hc
            subst hc
            exact hinv.clk i c1 ho
        · rw [if_neg hi] at hc
          exact hinv.clk i c0 hc

theorem storeInv_applyOp (nrm : Vec → Vec) (provider : PyStr → Option Vec) (s : VSState)
    (op : Op) (h : StoreInv s) : StoreInv (applyOp nrm provider s op) := by
  rcases op with ⟨tid, c, m⟩ | ⟨tid, c, m⟩
  · exact storeInv_add nrm provider s tid c m h
  · exact storeInv_update nrm provider s tid c m h

theorem runOps_inv (nrm : Vec → Vec) (provider : PyStr → Option Vec) (ops : List Op) :
    StoreInv (runOps nrm provider ops) := by
  rw [runOps]
  have main : ∀ (l : List Op) (s : VSState), StoreInv s →
      StoreInv (l.foldl (applyOp nrm provider) s) := by
    intro l
    induction l with
    | nil => intro s hs; exact hs
    | cons op rest ih =>
      intro s hs
      rw [List.foldl_cons]
      exact ih _ (storeInv_applyOp nrm provider s op hs)
  exact main ops initState storeInv_init

theorem searchLoop_eq_phase (chunks : List ChunkRec) (limit : Nat) :
    ∀ (hits : List (Int × ℚ)) (seen : List PyStr) (results : List SearchResult),
      searchLoop chunks limit hits seen results =
        match searchPhase chunks limit hits seen results with
        | .halt r => r
        | .cont _ rs => some rs := by
  intro hits
  induction hits with
  | nil => intro seen results; rfl
  | cons hit rest ih =>
    intro seen results
    rcases hit with ⟨idx, dist⟩
    rw [searchLoop, searchPhase]
    by_cases h1 : (chunks.length : Int) ≤ idx
    · rw [if_pos h1, if_pos h1]
      exact ih seen results
    · rw [if_neg h1, if_neg h1]
      cases hp : pyGet chunks idx with
      | none => rfl
      | some chunk =>
        dsimp only
        cases ht : chunk.text_id with
        | none => exact ih seen results
        | some tid =>
          dsimp only
          by_cases hs : tid ∈ seen
          · rw [if_pos hs, if_pos hs]
            exact ih seen results
          · rw [if_neg hs, if_neg hs]
            by_cases hl : limit ≤
                (results ++ [(⟨tid, chunk.content, chunk.metadata, dist, idx⟩ : SearchResult)]).length
            · rw [if_pos hl, if_pos hl]
            · rw [if_neg hl, if_neg hl]
              exact ih _ _

theorem searchPhase_append (chunks : List ChunkRec) (limit : Nat) :
    ∀ (xs ys : List (Int × ℚ)) (seen : List PyStr) (results : List SearchResult),
      searchPhase chunks limit (xs ++ ys) seen results =
        match searchPhase chunks limit xs seen results with
        | .halt r => .halt r
        | .cont seen2 results2 => searchPhase chunks limit ys seen2 results2 := by
  intro xs
  induction xs with
  | nil => intro ys seen results; rfl
  | cons hit rest ih =>
    intro ys seen results
    rcases hit with ⟨idx, dist⟩
    rw [List.cons_append, searchPhase, searchPhase]
    by_cases h1 : (chunks.length : Int) ≤ idx
    · rw [if_pos h1, if_pos h1]
      exact ih ys seen results
    · rw [if_neg h1, if_neg h1]
      cases hp : pyGet chunks idx with
      | none => rfl
      | some chunk =>
        dsimp only
        cases ht : chunk.text_id with
        | none => exact ih ys seen results
        | some tid =>
          dsimp only
          by_cases hs : tid ∈ seen
          · rw [if_pos hs, if_pos hs]
            exact ih ys seen results
          · rw [if_neg hs, if_neg hs]
            by_cases hl : limit ≤
                (results ++ [(⟨tid, chunk.content, chunk.metadata, dist, idx⟩ : SearchResult)]).length
            · rw [if_pos hl, if_pos hl]
            · rw [if_neg hl, if_neg hl]
              exact ih _ _ _

theorem newOk_cons (chunks : List ChunkRec) (hit : Int × ℚ) (rest : List (Int × ℚ))
    (seen : List PyStr) (new : List SearchResult) (h : NewOk chunks rest seen new) :
    NewOk chunks (hit :: rest) seen new := by
  obtain ⟨h1, h2, h3⟩ := h
  refine ⟨?_, h2, ?_⟩
  · intro r hr
    obtain ⟨⟨hm, hres⟩, hns⟩ := h1 r hr
    exact ⟨⟨List.mem_cons_of_mem _ hm, hres⟩, hns⟩
  · rw [List.map_cons]
    exact h3.cons _

theorem newOk_nil (chunks : List ChunkRec) (hits : List (Int × ℚ)) (seen : List PyStr) :
    NewOk chunks hits seen [] :=
  ⟨fun r hr => absurd hr (List.not_mem_nil r), List.nodup_nil, List.nil_sublist _⟩

theorem searchPhase_spec (chunks : List ChunkRec) (limit : Nat) :
    ∀ (hits : List (Int × ℚ)) (seen : List PyStr) (results : List SearchResult),
      (∀ out, searchPhase chunks limit hits seen results = .halt (some out) →
        ∃ new, out = results ++ new ∧ NewOk chunks hits seen new ∧
          (results.length < limit → out.length ≤ limit)) ∧
      (∀ seen2 results2, searchPhase chunks limit hits seen results = .cont seen2 results2 →
        (∃ new, results2 = results ++ new ∧ NewOk chunks hits seen new) ∧
        (∀ t, t ∈ seen → t ∈ seen2) ∧
        (results.length < limit → results2.length < limit) ∧
        (∀ (j : Int) (d : ℚ) (c : ChunkRec), (j, d) ∈ hits → pyGet chunks j = some c →
          c.text_id = none ∨ ∃ t, c.text_id = some t ∧ t ∈ seen2)) := by
  intro hits
  induction hits with
  | nil =>
    intro seen results
    constructor
    · intro out hout
      rw [searchPhase] at hout
      exact PhaseRes.noConfusion hout
    · intro seen2 results2 hc
      rw [searchPhase] at hc
      injection hc with e1 e2
      subst e1; subst e2
      refine ⟨⟨[], (List.append_nil results).symm, newOk_nil chunks [] seen⟩, fun t ht => ht,
        fun h => h, ?_⟩
      intro j d c hjd
      exact absurd hjd (List.not_mem_nil (j, d))
  | cons hit rest ih =>
    intro seen results
    rcases hit with ⟨idx, dist⟩
    rw [searchPhase]
    by_cases h1 : (chunks.length : Int) ≤ idx
    · rw [if_pos h1]
      obtain ⟨ihh, ihc⟩ := ih seen results
      constructor
      · intro out hout
        obtain ⟨new, hnew, hok, hlen⟩ := ihh out hout
        exact ⟨new, hnew, newOk_cons chunks (idx, dist) rest seen new hok, hlen⟩
      · intro seen2 results2 hc
        obtain ⟨⟨new, hnew, hok⟩, hmono, hlen, hblock⟩ := ihc seen2 results2 hc
        refine ⟨⟨new, hnew, newOk_cons chunks (idx, dist) rest seen new hok⟩, hmono, hlen, ?_⟩
        intro j d c hjd hpg
        rcases List.mem_cons.1 hjd with he | he
        · rw [Prod.mk.injEq] at he
          rw [he.1, pyGet_none_of_len_le chunks idx h1] at hpg
          exact Option.noConfusion hpg
        · exact hblock j d c he hpg
    · rw [if_neg h1]
      cases hp : pyGet chunks idx with
      | none =>
        constructor
        · intro out hout
          injection hout with hout
          exact Option.noConfusion hout
        · intro seen2 results2 hc
          exact PhaseRes.noConfusion hc
      | some chunk =>
        dsimp only
        cases ht : chunk.text_id with
        | none =>
          obtain ⟨ihh, ihc⟩ := ih seen results
          constructor
          · intro out hout
            obtain ⟨new, hnew, hok, hlen⟩ := ihh out hout
            exact ⟨new, hnew, newOk_cons chunks (idx, dist) rest seen new hok, hlen⟩
          · intro seen2 results2 hc
            obtain ⟨⟨new, hnew, hok⟩, hmono, hlen, hblock⟩ := ihc seen2 results2 hc
            refine ⟨⟨new, hnew, newOk_cons chunks (idx, dist) rest seen new hok⟩, hmono, hlen, ?_⟩
            intro j d c hjd hpg
            rcases List.mem_cons.1 hjd with he | he
            · rw [Prod.mk.injEq] at he
              rw [he.1, hp] at hpg
              injection hpg with hpg
              subst hpg
              exact Or.inl ht
            · exact hblock j d c he hpg
        | some tid =>
          dsimp only
          by_cases hs : tid ∈ seen
          · rw [if_pos hs]
            obtain ⟨ihh, ihc⟩ := ih seen results
            constructor
            · intro out hout
              obtain ⟨new, hnew, hok, hlen⟩ := ihh out hout
              exact ⟨new, hnew, newOk_cons chunks (idx, dist) rest seen new hok, hlen⟩
            · intro seen2 results2 hc
              obtain ⟨⟨new, hnew, hok⟩, hmono, hlen, hblock⟩ := ihc seen2 results2 hc
              refine ⟨⟨new, hnew, newOk_cons chunks (idx, dist) rest seen new hok⟩, hmono, hlen, ?_⟩
              intro j d c hjd hpg
              rcases List.mem_cons.1 hjd with he | he
              · rw [Prod.mk.injEq] at he
                rw [he.1, hp] at hpg
                injection hpg with hpg
                subst hpg
                exact Or.inr ⟨tid, ht, hmono tid hs⟩
              · exact hblock j d c he hpg
          · rw [if_neg hs]
            by_cases hl : limit ≤
                (results ++ [(⟨tid, chunk.content, chunk.metadata, dist, idx⟩ : SearchResult)]).length
            · rw [if_pos hl]
              constructor
              · intro out hout
                injection hout with hout
                injection hout with hout
                subst hout
                refine ⟨[⟨tid, chunk.content, chunk.metadata, dist, idx⟩], rfl, ?_, ?_⟩
                · refine ⟨?_, ?_, ?_⟩
                  · intro r hr
                    rw [List.mem_singleton] at hr
                    subst hr
                    exact ⟨⟨List.mem_cons_self _ _, chunk, hp, ht, rfl, rfl⟩, hs⟩
                  · exact List.nodup_singleton _
                  · rw [List.map_singleton, List.map_cons]
                    exact (List.nil_sublist _).cons₂ _
                · intro hrl
                  rw [List.length_append, List.length_singleton]
                  omega
              · intro seen2 results2 hc
                exact PhaseRes.noConfusion hc
            · rw [if_neg hl]
              obtain ⟨ihh, ihc⟩ :=
                ih (tid :: seen) (results ++ [⟨tid, chunk.content, chunk.metadata, dist, idx⟩])
              have hl2 :
                  (results ++
                    [(⟨tid, chunk.content, chunk.metadata, dist, idx⟩ : SearchResult)]).length <
                    limit := Nat.lt_of_not_le hl
              constructor
              · intro out hout
                obtain ⟨new2, hnew2, hok2, hlen2⟩ := ihh out hout
                refine ⟨⟨tid, chunk.content, chunk.metadata, dist, idx⟩ :: new2, ?_, ?_, ?_⟩
                · rw [hnew2, List.append_assoc, List.singleton_append]
                · obtain ⟨k1, k2, k3⟩ := hok2
                  refine ⟨?_, ?_, ?_⟩
                  · intro r hr
                    rcases List.mem_cons.1 hr with he | he
                    · subst he
                      exact ⟨⟨List.mem_cons_self _ _, chunk, hp, ht, rfl, rfl⟩, hs⟩
                    · obtain ⟨⟨hm, hres⟩, hns⟩ := k1 r he
                      exact ⟨⟨List.mem_cons_of_mem _ hm, hres⟩,
                        fun hmem => hns (List.mem_cons_of_mem _ hmem)⟩
                  · rw [List.map_cons, List.nodup_cons]
                    refine ⟨?_, k2⟩
                    intro hmem
                    rcases List.mem_map.1 hmem with ⟨r, hr, hrid⟩
                    exact (k1 r hr).2 (hrid ▸ List.mem_cons_self tid seen)
                  · rw [List.map_cons, List.map_cons]
                    exact k3.cons₂ _
                · intro _
                  exact hlen2 hl2
              · intro seen2 results2 hc
                obtain ⟨⟨new2, hnew2, hok2⟩, hmono2, hlen2, hblock2⟩ := ihc seen2 results2 hc
                obtain ⟨k1, k2, k3⟩ := hok2
                refine ⟨⟨⟨tid, chunk.content, chunk.metadata, dist, idx⟩ :: new2, ?_, ?_⟩,
                  ?_, ?_, ?_⟩
                · rw [hnew2, List.append_assoc, List.singleton_append]
                · refine ⟨?_, ?_, ?_⟩
                  · intro r hr
                    rcases List.mem_cons.1 hr with he | he
                    · subst he
                      exact ⟨⟨List.mem_cons_self _ _, chunk, hp, ht, rfl, rfl⟩, hs⟩
                    · obtain ⟨⟨hm, hres⟩, hns⟩ := k1 r he
                      exact ⟨⟨List.mem_cons_of_mem _ hm, hres⟩,
                        fun hmem => hns (List.mem_cons_of_mem _ hmem)⟩
                  · rw [List.map_cons, List.nodup_cons]
                    refine ⟨?_, k2⟩
                    intro hmem
                    rcases List.mem_map.1 hmem with ⟨r, hr, hrid⟩
                    exact (k1 r hr).2 (hrid ▸ List.mem_cons_self tid seen)
                  · rw [List.map_cons, List.map_cons]
                    exact k3.cons₂ _
                · intro t htm
                  exact hmono2 t (List.mem_cons_of_mem _ htm)
                · intro _
                  exact hlen2 hl2
                · intro j d c hjd hpg
                  rcases List.mem_cons.1 hjd with he | he
                  · rw [Prod.mk.injEq] at he
                    rw [he.1, hp] at hpg
                    injection hpg with hpg
                    subst hpg
                    exact Or.inr ⟨tid, ht, hmono2 tid (List.mem_cons_self tid seen)⟩
                  · exact hblock2 j d c he hpg

theorem searchPhase_pads (chunks : List ChunkRec) (limit : Nat) :
    ∀ (pads : List (Int × ℚ)) (seen : List PyStr) (results : List SearchResult),
      (∀ p ∈ pads, p.1 = (-1 : Int)) →
      (∀ c : ChunkRec, pyGet chunks (-1) = some c →
        c.text_id = none ∨ ∃ t, c.text_id = some t ∧ t ∈ seen) →
      (∃ c, pyGet chunks (-1) = some c) →
      searchPhase chunks limit pads seen results = .cont seen results := by
  intro pads
  induction pads with
  | nil => intro seen results _ _ _; rfl
  | cons p rest ih =>
    intro seen results hall hblock hex
    rcases p with ⟨j, d⟩
    have hj : j = -1 := hall (j, d) (List.mem_cons_self _ _)
    subst hj
    rw [searchPhase]
    have hlen : ¬ ((chunks.length : Int) ≤ -1) := by
      have h0 : (0 : Int) ≤ chunks.length := Int.ofNat_nonneg _
      omega
    rw [if_neg hlen]
    obtain ⟨c, hc⟩ := hex
    rw [hc]
    dsimp only
    rcases hblock c hc with hnone | ⟨t, htid, hts⟩
    · rw [hnone]
      exact ih seen results (fun p hp => hall p (List.mem_cons_of_mem _ hp)) hblock ⟨c, hc⟩
    · rw [htid]
      dsimp only
      rw [if_pos hts]
      exact ih seen results (fun p hp => hall p (List.mem_cons_of_mem _ hp)) hblock ⟨c, hc⟩

theorem faissScored_mem (vecs : List Vec) (q : Vec) (x : Int × ℚ)
    (hx : x ∈ faissScored vecs q) :
    ∃ (i : Nat), x.1 = (i : Int) ∧ vecs[i]?.isSome ∧
      ∀ v, vecs[i]? = some v → x.2 = sqDist q v := by
  rw [faissScored] at hx
  rcases List.mem_map.1 hx with ⟨p, hp, he⟩
  rcases p with ⟨i, v⟩
  have hv : vecs[i]? = some v := List.mk_mem_enum_iff_getElem?.1 hp
  subst he
  refine ⟨i, rfl, by rw [hv]; rfl, ?_⟩
  intro v0 hv0
  rw [hv] at hv0
  injection hv0 with hv0
  subst hv0
  rfl

theorem faissScored_mem_of_slot (vecs : List Vec) (q : Vec) (i : Nat) (v : Vec)
    (hv : vecs[i]? = some v) : ((i : Int), sqDist q v) ∈ faissScored vecs q := by
  rw [faissScored]
  exact List.mem_map.2 ⟨(i, v), List.mk_mem_enum_iff_getElem?.2 hv, rfl⟩

theorem faissReal_mem (vecs : List Vec) (q : Vec) (k : Nat) (x : Int × ℚ)
    (hx : x ∈ (List.insertionSort hitLE (faissScored vecs q)).take k) :
    x ∈ faissScored vecs q :=
  (List.perm_insertionSort hitLE (faissScored vecs q)).mem_iff.1
    ((List.take_sublist k _).mem hx)

theorem faissReal_scores_pairwise (vecs : List Vec) (q : Vec) (k : Nat) :
    (((List.insertionSort hitLE (faissScored vecs q)).take k).map
      (fun h => h.2)).Pairwise (· ≤ ·) := by
  have hs : List.Sorted hitLE (List.insertionSort hitLE (faissScored vecs q)) :=
    List.sorted_insertionSort hitLE (faissScored vecs q)
  have ht : ((List.insertionSort hitLE (faissScored vecs q)).take k).Pairwise hitLE :=
    hs.sublist (List.take_sublist k _)
  rw [List.pairwise_map]
  refine ht.imp ?_
  intro a b hab
  rcases hab with h | ⟨h, _⟩
  · exact le_of_lt h
  · exact le_of_eq h

theorem faissSearch_eq (vecs : List Vec) (q : Vec) (k : Nat) :
    faissSearch vecs q k =
      (List.insertionSort hitLE (faissScored vecs q)).take k ++
        List.replicate (k - vecs.length) ((-1 : Int), fltMax) := rfl

theorem faissSearch_nil (q : Vec) (k : Nat) :
    faissSearch [] q k = List.replicate k ((-1 : Int), fltMax) := by
  rw [faissSearch_eq]
  have h1 : faissScored [] q = [] := rfl
  rw [h1]
  simp [List.insertionSort]

theorem search_spec (nrm : Vec → Vec) (prov : PyStr → Option Vec) (s : VSState) (q : PyStr)
    (limit : Nat) (rs : List SearchResult) (h : search nrm prov s q limit = some rs) :
    (rs.map (fun r => r.id)).Nodup ∧
    (∀ r ∈ rs, ∃ c, pyGet s.chunks r.chunk_index = some c ∧ c.text_id = some r.id ∧
      r.content = c.content ∧ r.metadata = c.metadata) ∧
    rs.length ≤ limit := by
  rw [search] at h
  rw [searchLoop_eq_phase] at h
  rcases limit with _ | m
  · have hk : faissSearch s.index (nrm (get_embedding prov q)) (0 * 3) = [] := by
      rw [faissSearch_eq]
      simp
    rw [hk, searchPhase] at h
    dsimp only at h
    injection h with h
    subst h
    exact ⟨List.nodup_nil, fun r hr => absurd hr (List.not_mem_nil r), Nat.le_refl 0⟩
  · obtain ⟨sph, spc⟩ := searchPhase_spec s.chunks (m + 1)
      (faissSearch s.index (nrm (get_embedding prov q)) ((m + 1) * 3)) [] []
    rcases hpr : searchPhase s.chunks (m + 1)
        (faissSearch s.index (nrm (get_embedding prov q)) ((m + 1) * 3)) [] [] with
      r | ⟨seen2, results2⟩
    · rw [hpr] at h
      dsimp only at h
      subst h
      obtain ⟨new, hnew, ⟨k1, k2, k3⟩, hlen⟩ := sph rs hpr
      rw [List.nil_append] at hnew
      subst hnew
      refine ⟨k2, ?_, hlen (Nat.succ_pos m)⟩
      intro r hr
      exact ((k1 r hr).1).2
    · rw [hpr] at h
      dsimp only at h
      injection h with h
      subst h
      obtain ⟨⟨new, hnew, ⟨k1, k2, k3⟩⟩, _, hlen, _⟩ := spc seen2 results2 hpr
      rw [List.nil_append] at hnew
      subst hnew
      refine ⟨k2, ?_, Nat.le_of_lt (hlen (Nat.succ_pos m))⟩
      intro r hr
      exact ((k1 r hr).1).2

theorem search_results_real (nrm : Vec → Vec) (prov : PyStr → Option Vec) (s : VSState)
    (q : PyStr) (limit : Nat) (rs : List SearchResult)
    (halign : s.index.length = s.chunks.length)
    (h : search nrm prov s q limit = some rs) :
    NewOk s.chunks
      ((List.insertionSort hitLE (faissScored s.index (nrm (get_embedding prov q)))).take
        (limit * 3)) [] rs := by
  rw [search] at h
  rw [searchLoop_eq_phase, faissSearch_eq, searchPhase_append] at h
  obtain ⟨sph, spc⟩ := searchPhase_spec s.chunks limit
    ((List.insertionSort hitLE (faissScored s.index (nrm (get_embedding prov q)))).take
      (limit * 3)) [] []
  rcases hpr : searchPhase s.chunks limit
      ((List.insertionSort hitLE (faissScored s.index (nrm (get_embedding prov q)))).take
        (limit * 3)) [] [] with
    r | ⟨seen2, results2⟩
  · rw [hpr] at h
    dsimp only at h
    subst h
    obtain ⟨new, hnew, hok, _⟩ := sph rs hpr
    rw [List.nil_append] at hnew
    subst hnew
    exact hok
  · rw [hpr] at h
    dsimp only at h
    obtain ⟨⟨new, hnew, hok⟩, _, _, hblock⟩ := spc seen2 results2 hpr
    rw [List.nil_append] at hnew
    subst hnew
    rcases hpad : limit * 3 - s.index.length with _ | pn
    · rw [hpad, List.replicate_zero, searchPhase] at h
      injection h with h
      subst h
      exact hok
    · rcases hch : s.chunks with _ | ⟨c0, cr⟩
      · have hvec : s.index = [] := by
          have h2 := halign
          rw [hch] at h2
          exact List.length_eq_zero.1 h2
        rw [hvec] at h hpad
        rw [hch] at h
        rw [hpad, List.replicate_succ, searchPhase] at h
        rw [if_neg (by simp)] at h
        rw [pyGet_nil_neg] at h
        dsimp only at h
        exact Option.noConfusion h
      · have hn1 : s.chunks.length - 1 < s.index.length := by
          rw [halign, hch]
          simp
        have hvex : s.index[s.chunks.length - 1]?.isSome := by
          rw [List.getElem?_eq_getElem hn1]
          rfl
        obtain ⟨v, hv⟩ := Option.isSome_iff_exists.1 hvex
        have hreal : (((s.chunks.length - 1 : Nat) : Int), sqDist (nrm (get_embedding prov q)) v) ∈
            (List.insertionSort hitLE
              (faissScored s.index (nrm (get_embedding prov q)))).take (limit * 3) := by
          have hmem : ((((s.chunks.length - 1 : Nat)) : Int),
              sqDist (nrm (get_embedding prov q)) v) ∈
              faissScored s.index (nrm (get_embedding prov q)) :=
            faissScored_mem_of_slot _ _ _ _ hv
          have hlen2 : (List.insertionSort hitLE
              (faissScored s.index (nrm (get_embedding prov q)))).length ≤ limit * 3 := by
            rw [List.length_insertionSort, faissScored, List.length_map, List.enum_length]
            omega
          rw [List.take_of_length_le hlen2]
          exact ((List.perm_insertionSort hitLE _).mem_iff).2 hmem
        have hchne : s.chunks ≠ [] := by rw [hch]; exact List.cons_ne_nil c0 cr
        have hcex : ∃ cc, pyGet s.chunks ((s.chunks.length - 1 : Nat) : Int) = some cc := by
          rw [pyGet_ofNat]
          have hlt : s.chunks.length - 1 < s.chunks.length := by rw [hch]; simp
          rw [List.getElem?_eq_getElem hlt]
          exact ⟨_, rfl⟩
        obtain ⟨cc, hcc⟩ := hcex
        have hccneg : pyGet s.chunks (-1) = some cc := by
          rw [pyGet_neg_one s.chunks hchne]
          rw [pyGet_ofNat] at hcc
          exact hcc
        have hblocked : ∀ c : ChunkRec, pyGet s.chunks (-1) = some c →
            c.text_id = none ∨ ∃ t, c.text_id = some t ∧ t ∈ seen2 := by
          intro c hc
          rw [hccneg] at hc
          injection hc with hc
          subst hc
          exact hblock _ _ cc hreal hcc
        rw [searchPhase_pads s.chunks limit _ seen2 results2
          (fun p hp => (List.eq_of_mem_replicate hp) ▸ rfl) hblocked ⟨cc, hccneg⟩] at h
        injection h with h
        subst h
        exact hch ▸ hok

theorem search_initState_none (nrm : Vec → Vec) (prov : PyStr → Option Vec) (q : PyStr)
    (limit : Nat) (h : 1 ≤ limit) : search nrm prov initState q limit = none := by
  rw [search]
  have hidx : initState.index = [] := rfl
  have hch : initState.chunks = [] := rfl
  rw [hidx, hch, faissSearch_nil]
  obtain ⟨n, hn⟩ : ∃ n, limit * 3 = n + 1 := ⟨limit * 3 - 1, by omega⟩
  rw [hn, List.replicate_succ, searchLoop]
  rw [if_neg (by simp)]
  rw [pyGet_nil_neg]

theorem dropWhile_eq_self_of_head (l : PyStr)
    (h : ∀ c, l.head? = some c → pyIsSpace c = false) : l.dropWhile pyIsSpace = l := by
  cases l with
  | nil => rfl
  | cons a t =>
    have ha : pyIsSpace a = false := h a rfl
    rw [List.dropWhile_cons, if_neg (by rw [ha]; exact Bool.false_ne_true)]

theorem pyStrip_eq_self (p : PyStr) (h : goodPiece p) : pyStrip p = p := by
  obtain ⟨hne, hh, hl⟩ := h
  rw [pyStrip, dropWhile_eq_self_of_head p hh,
    dropWhile_eq_self_of_head p.reverse
      (fun c hc => hl c (by rwa [List.head?_reverse] at hc)),
    List.reverse_reverse]

theorem head?_dropWhile_not (l : PyStr) :
    ∀ c, (l.dropWhile pyIsSpace).head? = some c → pyIsSpace c = false := by
  induction l with
  | nil => intro c hc; exact Option.noConfusion hc
  | cons a t ih =>
    intro c hc
    rw [List.dropWhile_cons] at hc
    by_cases ha : pyIsSpace a
    · rw [if_pos ha] at hc
      exact ih c hc
    · rw [if_neg ha] at hc
      injection hc with hc
      subst hc
      simpa using ha

theorem getLast?_dropWhile (l : PyStr) (h : l.dropWhile pyIsSpace ≠ []) :
    (l.dropWhile pyIsSpace).getLast? = l.getLast? := by
  obtain ⟨t, ht⟩ := List.dropWhile_suffix (l := l) (p := pyIsSpace)
  rcases he : (l.dropWhile pyIsSpace).getLast? with _ | c
  · exact absurd (List.getLast?_eq_none_iff.1 he) h
  · rw [← ht, List.getLast?_append, he]
    rfl

theorem goodPiece_pyStrip (s : PyStr) (h : pyStrip s ≠ []) : goodPiece (pyStrip s) := by
  refine ⟨h, ?_, ?_⟩
  · intro c hc
    rw [pyStrip, List.head?_reverse] at hc
    have hne : (s.dropWhile pyIsSpace).reverse.dropWhile pyIsSpace ≠ [] := by
      intro he
      rw [pyStrip, he] at h
      exact h rfl
    rw [getLast?_dropWhile _ hne, List.getLast?_reverse] at hc
    exact head?_dropWhile_not s c hc
  · intro c hc
    rw [pyStrip, List.getLast?_reverse] at hc
    exact head?_dropWhile_not (s.dropWhile pyIsSpace).reverse c hc

theorem isSentEnd_not_space (c : Char) (h : isSentEnd c = true) : pyIsSpace c = false := by
  rw [isSentEnd] at h
  simp only [Bool.or_eq_true, decide_eq_true_eq] at h
  rcases h with (h | h) | h <;> subst h <;> rfl

theorem sentSplitAux_good :
    ∀ (fuel : Nat) (s acc : PyStr), s.length ≤ fuel → goodPiece (acc.reverse ++ s) →
      ∀ p ∈ sentSplitAux fuel s acc, goodPiece p := by
  intro fuel
  induction fuel with
  | zero =>
    intro s acc hf hg p hp
    have hs : s = [] := List.length_eq_zero.1 (Nat.le_zero.1 hf)
    subst hs
    rw [sentSplitAux] at hp
    rw [List.mem_singleton] at hp
    subst hp
    rw [List.append_nil] at hg
    rw [List.append_nil]
    exact hg
  | succ fuel ih =>
    intro s acc hf hg p hp
    cases s with
    | nil =>
      rw [sentSplitAux.eq_def] at hp
      dsimp only at hp
      rw [List.mem_singleton] at hp
      subst hp
      rw [List.append_nil] at hg
      exact hg
    | cons c rest =>
      rw [sentSplitAux.eq_def] at hp
      dsimp only at hp
      split at hp
      case isTrue hcond =>
        rw [Bool.and_eq_true] at hcond
        have hrest_ne : rest ≠ [] := by
          rcases rest with _ | ⟨r, rr⟩
          · exact absurd hcond.2 (by simp)
          · exact List.cons_ne_nil r rr
        have hlast_whole : ∀ c0, (acc.reverse ++ c :: rest).getLast? = some c0 →
            pyIsSpace c0 = false := hg.2.2
        have hlast_rest : ∀ c0, rest.getLast? = some c0 → pyIsSpace c0 = false := by
          intro c0 hc0
          refine hlast_whole c0 ?_
          rw [List.getLast?_append]
          have h3 : (c :: rest).getLast? = some c0 := by
            rw [← List.singleton_append, List.getLast?_append, hc0]
            rfl
          rw [h3]
          rfl
        rcases List.mem_cons.1 hp with hpe | hpe
        · subst hpe
          refine ⟨by simp, ?_, ?_⟩
          · intro c0 hc0
            rcases hacc : acc.reverse with _ | ⟨a, t⟩
            · rw [hacc, List.nil_append, List.head?_cons] at hc0
              injection hc0 with hc0
              subst hc0
              exact isSentEnd_not_space c hcond.1
            · have hwhole := hg.2.1
              rw [hacc] at hwhole
              rw [hacc, List.cons_append, List.head?_cons] at hc0
              exact hwhole c0 (by rw [List.cons_append, List.head?_cons]; exact hc0)
          · intro c0 hc0
            rw [List.getLast?_concat] at hc0
            injection hc0 with hc0
            subst hc0
            exact isSentEnd_not_space c hcond.1
        · refine ih (rest.dropWhile pyIsSpace) [] ?_ ?_ p hpe
          · have h1 : (rest.dropWhile pyIsSpace).length ≤ rest.length :=
              (List.dropWhile_suffix (l := rest) (p := pyIsSpace)).length_le
            have h2 : (c :: rest).length ≤ fuel + 1 := hf
            rw [List.length_cons] at h2
            omega
          · rw [List.reverse_nil, List.nil_append]
            have hdne : rest.dropWhile pyIsSpace ≠ [] := by
              intro he
              have hall : ∀ x ∈ rest, pyIsSpace x := by
                intro x hx
                exact List.dropWhile_eq_nil_iff.1 he x hx
              have hws := hall (rest.getLast hrest_ne) (List.getLast_mem hrest_ne)
              have hnws := hlast_rest (rest.getLast hrest_ne)
                (List.getLast?_eq_getLast rest hrest_ne)
              rw [hws] at hnws
              exact Bool.noConfusion hnws
            refine ⟨hdne, head?_dropWhile_not rest, ?_⟩
            intro c0 hc0
            rw [getLast?_dropWhile rest hdne] at hc0
            exact hlast_rest c0 hc0
      case isFalse hcond =>
        refine ih rest (c :: acc) ?_ ?_ p hp
        · have h2 : (c :: rest).length ≤ fuel + 1 := hf
          rw [List.length_cons] at h2
          omega
        · rw [List.reverse_cons, List.append_assoc, List.singleton_append]
          exact hg

theorem sentSplit_good (t : PyStr) (hg : goodPiece t) :
    ∀ p ∈ sentSplit t, goodPiece p := by
  intro p hp
  refine sentSplitAux_good t.length t [] (Nat.le_refl _) ?_ p hp
  rw [List.reverse_nil, List.nil_append]
  exact hg

theorem goodPiece_glue (a b : PyStr) (ha : goodPiece a) (hb : goodPiece b) :
    goodPiece (a ++ ' ' :: b) := by
  refine ⟨by simp, ?_, ?_⟩
  · intro c hc
    rcases hha : a.head? with _ | a0
    · exact absurd (List.head?_eq_none_iff.1 hha) ha.1
    · rw [List.head?_append, hha, Option.or_some] at hc
      injection hc with hc
      subst hc
      exact ha.2.1 a0 hha
  · intro c hc
    rcases hlb : b.getLast? with _ | b0
    · exact absurd (List.getLast?_eq_none_iff.1 hlb) hb.1
    · rw [List.getLast?_append, ← List.singleton_append, List.getLast?_append, hlb,
        Option.or_some, Option.or_some] at hc
      injection hc with hc
      subst hc
      exact hb.2.2 b0 hlb

theorem sentAccLoop_spec (min_size max_size : Nat) (hmin : 1 ≤ min_size) :
    ∀ (sentences chunks : List PyStr) (current : PyStr),
      (∀ s ∈ sentences, goodPiece s) →
      (∀ ch ∈ chunks, min_size ≤ ch.length ∧ ch ≠ []) →
      (current = [] ∨ goodPiece current) →
      ∀ ch ∈ sentAccLoop min_size max_size sentences chunks current,
        min_size ≤ ch.length ∧ ch ≠ [] := by
  intro sentences
  induction sentences with
  | nil =>
    intro chunks current _ hch hcur ch hmem
    rw [sentAccLoop] at hmem
    split at hmem
    case isTrue hcond =>
      rw [Bool.and_eq_true] at hcond
      have hcne : current ≠ [] := by
        intro he
        rw [he] at hcond
        exact Bool.noConfusion hcond.1
      have hclen : min_size ≤ current.length := of_decide_eq_true hcond.2
      have hgood : goodPiece current := hcur.resolve_left hcne
      rcases List.mem_append.1 hmem with hm | hm
      · exact hch ch hm
      · rw [List.mem_singleton] at hm
        subst hm
        rw [pyStrip_eq_self current hgood]
        exact ⟨hclen, hcne⟩
    case isFalse hcond => exact hch ch hmem
  | cons sentence rest ih =>
    intro chunks current hs hch hcur ch hmem
    rw [sentAccLoop] at hmem
    have hsent : goodPiece sentence := hs sentence (List.mem_cons_self _ _)
    have hrest : ∀ s ∈ rest, goodPiece s := fun s h => hs s (List.mem_cons_of_mem _ h)
    split at hmem
    case isTrue hcond =>
      rw [Bool.and_eq_true] at hcond
      have hclen : min_size ≤ current.length := of_decide_eq_true hcond.2
      have hcne : current ≠ [] := by
        intro he
        rw [he] at hclen
        rw [List.length_nil] at hclen
        omega
      have hgood : goodPiece current := hcur.resolve_left hcne
      refine ih (chunks ++ [pyStrip current]) sentence hrest ?_ (Or.inr hsent) ch hmem
      intro ch2 hm
      rcases List.mem_append.1 hm with hm2 | hm2
      · exact hch ch2 hm2
      · rw [List.mem_singleton] at hm2
        subst hm2
        rw [pyStrip_eq_self current hgood]
        exact ⟨hclen, hcne⟩
    case isFalse hcond =>
      split at hmem
      case isTrue hemp => exact ih chunks sentence hrest hch (Or.inr hsent) ch hmem
      case isFalse hemp =>
        have hcne : current ≠ [] := by
          intro he
          rw [he] at hemp
          exact hemp rfl
        have hgood : goodPiece current := hcur.resolve_left hcne
        exact ih chunks (current ++ ' ' :: sentence) hrest hch
          (Or.inr (goodPiece_glue current sentence hgood hsent)) ch hmem

theorem chunk_by_sentence_spec (t : PyStr) (min_size max_size : Nat) (hmin : 1 ≤ min_size)
    (hg : goodPiece t) :
    ∀ ch ∈ chunk_by_sentence t min_size max_size, min_size ≤ ch.length ∧ ch ≠ [] := by
  rw [chunk_by_sentence]
  refine sentAccLoop_spec min_size max_size hmin (sentSplit t) [] [] ?_ ?_ (Or.inl rfl)
  · exact sentSplit_good t hg
  · intro ch hch
    exact absurd hch (List.not_mem_nil ch)

theorem chunk_by_paragraph_min (text : PyStr) (min_size max_size : Nat) (hmin : 1 ≤ min_size) :
    ∀ ch ∈ chunk_by_paragraph text min_size max_size, min_size ≤ ch.length ∧ ch ≠ [] := by
  intro ch hch
  rw [chunk_by_paragraph] at hch
  rw [List.mem_flatMap] at hch
  obtain ⟨para, hpara, hin⟩ := hch
  rw [List.mem_filter] at hpara
  obtain ⟨hmap, hcond⟩ := hpara
  rw [Bool.and_eq_true] at hcond
  have hne : para ≠ [] := by
    intro he
    rw [he] at hcond
    exact Bool.noConfusion hcond.1
  have hlen : min_size ≤ para.length := of_decide_eq_true hcond.2
  obtain ⟨raw, _, hr⟩ := List.mem_map.1 hmap
  have hgood : goodPiece para := hr ▸ goodPiece_pyStrip raw (by rw [hr]; exact hne)
  by_cases hle : para.length ≤ max_size
  · rw [if_pos hle, List.mem_singleton] at hin
    subst hin
    exact ⟨hlen, hne⟩
  · rw [if_neg hle] at hin
    exact chunk_by_sentence_spec para min_size max_size hmin hgood ch hin

theorem mergeRun_length (tid : PyStr) (m : PyDict Val) :
    ∀ (idxs : List Nat) (cs : List ChunkRec) (clk : Nat),
      (mergeRun tid m cs clk idxs).1.length = cs.length := by
  intro idxs
  induction idxs with
  | nil => intro cs clk; rfl
  | cons idx rest ih =>
    intro cs clk
    rw [mergeRun_cons, ih]
    rw [mergeStep]
    rcases hc : cs[idx]? with _ | c
    · rfl
    · dsimp only
      by_cases hti : c.text_id = some tid
      · rw [if_pos hti]
        exact List.length_set _ _ _
      · rw [if_neg hti]

theorem applyOp_chunks_grow (nrm : Vec → Vec) (provider : PyStr → Option Vec) (s : VSState)
    (op : Op) : s.chunks.length ≤ (applyOp nrm provider s op).chunks.length := by
  rcases op with ⟨tid, c, m⟩ | ⟨tid, c, m⟩
  · rw [applyOp, add_text_spec]
    dsimp only
    rw [List.length_append]
    exact Nat.le_add_right _ _
  · rw [applyOp, update_text]
    rcases hg : alGet s.id_map tid with _ | old
    · exact Nat.le_refl _
    · rcases c with _ | c2
      · rcases m with _ | m2
        · exact Nat.le_refl _
        · dsimp only
          rw [mergeRun_length]
      · dsimp only
        rw [tombstoneAll_length, add_text_spec]
        dsimp only
        rw [List.length_append]
        exact Nat.le_add_right _ _

/-- C1 counterexample: in the two-document store built by adding "d1" (embedded
at the unit vector e1) and "d2" (at e2), searching for the text embedded at e1
returns "d1" first with score 0 and "d2" second with score 2: the score is the
squared L2 distance, so the earlier (more relevant) result carries the
SMALLER score and the nearest chunk carries the least score, refuting the
claim that scores are higher-is-more-relevant and non-increasing. -/
theorem C1_counterexample :
    search nrmId provAB
        (runOps nrmId provAB [.add "d1".data "alpha".data none, .add "d2".data "beta".data none])
        "alpha".data 2 =
      some [⟨"d1".data, "alpha".data, [], 0, 0⟩, ⟨"d2".data, "beta".data, [], 2, 1⟩] ∧
    ¬ ((0 : ℚ) ≥ 2) :=
  ⟨by decide, by decide⟩

/-- C1 (amended): for every reachable store state and query, each result of
search(query, limit) carries as score the squared Euclidean distance between
the normalized query vector and the stored vector at the result's slot —
monotonically DECREASING with cosine similarity, lower meaning more relevant:
for any two returned results r_i before r_j, score(r_i) ≤ score(r_j), and the
returned result whose chunk vector is nearest the query carries the least
score. -/
theorem C1_amended (nrm : Vec → Vec) (provider : PyStr → Option Vec) (ops : List Op)
    (q : PyStr) (limit : Nat) (rs : List SearchResult)
    (h : search nrm provider (runOps nrm provider ops) q limit = some rs) :
    List.Pairwise (fun a b => a.score ≤ b.score) rs ∧
    ∀ r ∈ rs, ∃ i : Nat, r.chunk_index = (i : Int) ∧
      ∃ v, (runOps nrm provider ops).index[i]? = some v ∧
        r.score = sqDist (nrm (get_embedding provider q)) v := by
  have halign := (runOps_inv nrm provider ops).align
  obtain ⟨k1, k2, k3⟩ :=
    search_results_real nrm provider (runOps nrm provider ops) q limit rs halign h
  constructor
  · have hsorted := faissReal_scores_pairwise (runOps nrm provider ops).index
      (nrm (get_embedding provider q)) (limit * 3)
    have hsub := hsorted.sublist k3
    rw [List.pairwise_map] at hsub
    exact hsub
  · intro r hr
    obtain ⟨hmem, _⟩ := (k1 r hr).1
    have hsc := faissReal_mem _ _ _ _ hmem
    obtain ⟨i, hi1, hi2, hi3⟩ := faissScored_mem _ _ _ hsc
    obtain ⟨v, hv⟩ := Option.isSome_iff_exists.1 hi2
    exact ⟨i, hi1, v, hv, hi3 v hv⟩

theorem C1_amended_witness :
    List.Pairwise (fun a b => a.score ≤ b.score)
      [(⟨"d1".data, "alpha".data, [], 0, 0⟩ : SearchResult),
        ⟨"d2".data, "beta".data, [], 2, 1⟩] ∧
    ∀ r ∈ [(⟨"d1".data, "alpha".data, [], 0, 0⟩ : SearchResult),
        ⟨"d2".data, "beta".data, [], 2, 1⟩], ∃ i : Nat, r.chunk_index = (i : Int) ∧
      ∃ v, (runOps nrmId provAB [.add "d1".data "alpha".data none,
          .add "d2".data "beta".data none]).index[i]? = some v ∧
        r.score = sqDist (nrmId (get_embedding provAB "alpha".data)) v :=
  C1_amended nrmId provAB [.add "d1".data "alpha".data none, .add "d2".data "beta".data none]
    "alpha".data 2 _ (by decide)

/-- C2 (code bug): on the empty store, search(query, limit) raises an
IndexError for every limit ≥ 1 instead of returning the empty sequence: FAISS
pads its result rows with label -1, the guard `idx >= len(chunks)` does not
catch -1, and `chunks[-1]` on the empty catalog raises.  The model returns
`none` for the raised exception. -/
theorem C2_bug_empty_search_raises (nrm : Vec → Vec) (provider : PyStr → Option Vec)
    (q : PyStr) (limit : Nat) (h : 1 ≤ limit) :
    search nrm provider initState q limit = none :=
  search_initState_none nrm provider q limit h

theorem C2_bug_witness :
    (1 : Nat) ≤ 1 ∧ search nrmId provAB initState "alpha".data 1 = none :=
  ⟨by decide, C2_bug_empty_search_raises nrmId provAB "alpha".data 1 (by decide)⟩

set_option maxRecDepth 8000 in
/-- C3 counterexample: with a provider whose calls always fail, add_text still
runs to completion and indexes the chunk — the failed embedding is silently
replaced by a 768-dimensional zero vector, the chunk is recorded in the
catalog, and the call returns the new slot; no failure is propagated.  This
refutes the claim that a provider failure aborts the whole add. -/
theorem C3_counterexample :
    provFail "hi".data = none ∧
    add_text nrmId provFail initState "d1".data "hi".data none =
      (⟨[List.replicate 768 0], [⟨0, some "d1".data, 0, "hi".data, [], 0⟩],
        [("d1".data, [0])], 1⟩, [0]) :=
  ⟨rfl, by decide⟩

/-- C3 (amended): when an Embedding Provider call fails, get_embedding
silently substitutes a 768-dimensional zero vector, and add_text always
completes, appending one catalog record per chunk (at least one), regardless
of provider failures. -/
theorem C3_amended :
    (∀ (provider : PyStr → Option Vec) (t : PyStr), provider t = none →
      get_embedding provider t = List.replicate 768 0) ∧
    (∀ (nrm : Vec → Vec) (provider : PyStr → Option Vec) (s : VSState) (tid content : PyStr)
      (md : Option (PyDict Val)),
      (add_text nrm provider s tid content md).1.chunks.length =
        s.chunks.length + (chunksForAdd content).length ∧
      1 ≤ (chunksForAdd content).length) := by
  constructor
  · intro provider t h
    rw [get_embedding, h]
  · intro nrm provider s tid content md
    constructor
    · rw [add_text_spec]
      dsimp only
      rw [List.length_append, mkRecs_length]
    · exact List.length_pos.2 (chunksForAdd_ne_nil content)

theorem C3_amended_witness :
    get_embedding provFail "hi".data = List.replicate 768 0 ∧
    (add_text nrmId provFail initState "d1".data "hi".data none).1.chunks.length =
      initState.chunks.length + (chunksForAdd "hi".data).length ∧
    1 ≤ (chunksForAdd "hi".data).length :=
  ⟨C3_amended.1 provFail "hi".data rfl,
    C3_amended.2 nrmId provFail initState "d1".data "hi".data none⟩

/-- C5: in every state reachable by add/update operations, whenever search
returns a list of results, no two results share a doc id, every result
resolves to a live (non-tombstoned) catalog record owning that doc id, and at
most limit results are returned. -/
theorem C5_search_invariants (nrm : Vec → Vec) (provider : PyStr → Option Vec) (ops : List Op)
    (q : PyStr) (limit : Nat) (rs : List SearchResult)
    (h : search nrm provider (runOps nrm provider ops) q limit = some rs) :
    (rs.map (fun r => r.id)).Nodup ∧
    (∀ r ∈ rs, ∃ c, pyGet (runOps nrm provider ops).chunks r.chunk_index = some c ∧
      c.text_id = some r.id) ∧
    rs.length ≤ limit := by
  obtain ⟨h1, h2, h3⟩ := search_spec nrm provider _ q limit rs h
  exact ⟨h1, fun r hr => (h2 r hr).imp (fun c hc => ⟨hc.1, hc.2.1⟩), h3⟩

theorem C5_witness :
    (([(⟨"d1".data, "alpha".data, [], 0, 0⟩ : SearchResult)]).map (fun r => r.id)).Nodup ∧
    (∀ r ∈ [(⟨"d1".data, "alpha".data, [], 0, 0⟩ : SearchResult)],
      ∃ c, pyGet (runOps nrmId provAB [.add "d1".data "alpha".data none]).chunks
        r.chunk_index = some c ∧ c.text_id = some r.id) ∧
    ([(⟨"d1".data, "alpha".data, [], 0, 0⟩ : SearchResult)]).length ≤ 1 :=
  C5_search_invariants nrmId provAB [.add "d1".data "alpha".data none] "alpha".data 1 _
    (by decide)

/-- C7: in every reachable state, the Similarity Index and the Chunk Catalog
have the same number of entries, the catalog record stored at slot i carries
chunk_index = i (slot = position, assigned densely in insertion order), and
slots are never removed or reused: the catalog only grows under any further
operation. -/
theorem C7_alignment (nrm : Vec → Vec) (provider : PyStr → Option Vec) (ops : List Op) :
    (runOps nrm provider ops).index.length = (runOps nrm provider ops).chunks.length ∧
    (∀ (i : Nat) (c : ChunkRec), (runOps nrm provider ops).chunks[i]? = some c →
      c.chunk_index = i) ∧
    (∀ op : Op, (runOps nrm provider ops).chunks.length ≤
      (runOps nrm provider (ops ++ [op])).chunks.length) := by
  refine ⟨(runOps_inv nrm provider ops).align, (runOps_inv nrm provider ops).cidx, ?_⟩
  intro op
  rw [runOps, runOps, List.foldl_append, List.foldl_cons, List.foldl_nil]
  exact applyOp_chunks_grow nrm provider _ op

theorem C7_witness :
    (runOps nrmId provAB [.add "d1".data "alpha".data none]).index.length =
      (runOps nrmId provAB [.add "d1".data "alpha".data none]).chunks.length ∧
    (⟨0, some "d1".data, 0, "alpha".data, [], 0⟩ : ChunkRec).chunk_index = 0 ∧
    (runOps nrmId provAB [.add "d1".data "alpha".data none]).chunks.length ≤
      (runOps nrmId provAB
        ([.add "d1".data "alpha".data none] ++ [.add "d2".data "beta".data none])).chunks.length :=
  ⟨(C7_alignment nrmId provAB [.add "d1".data "alpha".data none]).1,
    (C7_alignment nrmId provAB [.add "d1".data "alpha".data none]).2.1 0
      ⟨0, some "d1".data, 0, "alpha".data, [], 0⟩ (by decide),
    (C7_alignment nrmId provAB [.add "d1".data "alpha".data none]).2.2
      (.add "d2".data "beta".data none)⟩

/-- C6 counterexample, refuting both bounds of the claim separately.
First, with min_size = 1 ≤ max_size = 3, the input "aaaaa" (one paragraph,
no sentence boundary) produces the single chunk "aaaaa" of length 5 >
max_size, refuting "length within [min_size, max_size]".  Second, with
min_size = 1 ≤ max_size = 7, the input "ab.  cd." (one paragraph of length
8 > max_size, two sentences separated by TWO spaces) produces the single
chunk "ab. cd.": the sentence pieces are rejoined with a single space
regardless of the original separator, so the produced chunk is not a
substring (contiguous infix) of the input, refuting "substring of the
input". -/
theorem C6_counterexample :
    ((1 : Nat) ≤ 3 ∧ chunk_by_paragraph "aaaaa".data 1 3 = ["aaaaa".data] ∧
      ¬ (("aaaaa".data : PyStr).length ≤ 3)) ∧
    ((1 : Nat) ≤ 7 ∧ chunk_by_paragraph "ab.  cd.".data 1 7 = ["ab. cd.".data] ∧
      ¬ ("ab. cd.".data <:+: "ab.  cd.".data)) :=
  ⟨⟨by decide, by decide, by decide⟩, ⟨by decide, by decide, by decide⟩⟩

/-- C6 (amended): for every input text and every min_size with 1 ≤ min_size,
every string produced by the chunker is non-empty and has length at least
min_size — in particular the original's exception is never exercised: no
produced chunk ever falls under min_size.  The remaining conjuncts of the
original fail on the code (see the counterexample): a produced chunk may
exceed max_size, and need not be a substring of the input. -/
theorem C6_amended (text : PyStr) (min_size max_size : Nat) (hmin : 1 ≤ min_size) :
    ∀ ch ∈ chunk_by_paragraph text min_size max_size, min_size ≤ ch.length ∧ ch ≠ [] :=
  chunk_by_paragraph_min text min_size max_size hmin

theorem C6_amended_witness :
    (1 : Nat) ≤ ("aaaaa".data : PyStr).length ∧ ("aaaaa".data : PyStr) ≠ [] :=
  C6_amended "aaaaa".data 1 3 (by decide) "aaaaa".data (by decide)

/-- C9: whenever the paragraph chunker produces no chunks for the input text,
add_text indexes the entire input verbatim as a single chunk: exactly one
slot is appended, recording the input text as its content. -/
theorem C9_single_chunk_fallback (nrm : Vec → Vec) (provider : PyStr → Option Vec)
    (s : VSState) (tid content : PyStr) (md : Option (PyDict Val))
    (h : chunk_by_paragraph content 50 1000 = []) :
    add_text nrm provider s tid content md =
      (⟨s.index ++ [nrm (get_embedding provider content)],
        s.chunks ++ [⟨s.chunks.length, some tid, 0, content, md.getD [], s.clock⟩],
        alSet s.id_map tid [s.chunks.length], s.clock + 1⟩,
       [s.chunks.length]) := by
  have hca : chunksForAdd content = [content] := by
    rw [chunksForAdd, h]
    rfl
  rw [add_text_spec, hca]
  rfl

theorem C9_witness :
    chunk_by_paragraph "hi".data 50 1000 = [] ∧
    add_text nrmId provAB initState "d9".data "hi".data none =
      (⟨initState.index ++ [nrmId (get_embedding provAB "hi".data)],
        initState.chunks ++
          [⟨initState.chunks.length, some "d9".data, 0, "hi".data, Option.none.getD [],
            initState.clock⟩],
        alSet initState.id_map "d9".data [initState.chunks.length], initState.clock + 1⟩,
       [initState.chunks.length]) :=
  ⟨by decide,
    C9_single_chunk_fallback nrmId provAB initState "d9".data "hi".data none (by decide)⟩

theorem alGet_eq_none_notmem {α : Type} : ∀ (d : PyDict α) (k : PyStr),
    alGet d k = none → k ∉ d.map Prod.fst := by
  intro d
  induction d with
  | nil => intro k _ hk; exact absurd hk (List.not_mem_nil k)
  | cons p t ih =>
    intro k hg hk
    rcases p with ⟨k0, v0⟩
    rw [alGet] at hg
    by_cases h0 : k0 = k
    · rw [if_pos h0] at hg
      exact Option.noConfusion hg
    · rw [if_neg h0] at hg
      rcases List.mem_cons.1 hk with h | h
      · exact h0 h.symm
      · exact ih k hg h

theorem mergeRun_noop (tid : PyStr) (m : PyDict Val) :
    ∀ (idxs : List Nat) (cs : List ChunkRec) (clk : Nat),
      (∀ idx ∈ idxs, ∀ c, cs[idx]? = some c → c.text_id ≠ some tid) →
      mergeRun tid m cs clk idxs = (cs, clk) := by
  intro idxs
  induction idxs with
  | nil => intro cs clk _; rfl
  | cons idx rest ih =>
    intro cs clk hno
    rw [mergeRun_cons]
    have hstep : mergeStep tid m (cs, clk) idx = (cs, clk) := by
      rw [mergeStep]
      dsimp only
      rcases hc : cs[idx]? with _ | c
      · rfl
      · dsimp only
        rw [if_neg (hno idx (List.mem_cons_self _ _) c hc)]
    rw [hstep]
    exact ih cs clk (fun i hi c hc => hno i (List.mem_cons_of_mem _ hi) c hc)

theorem filterMap_range'_append (tid : PyStr) :
    ∀ (recs pre : List ChunkRec), (∀ r ∈ recs, r.text_id = some tid) →
      (List.range' pre.length recs.length).filterMap (fun idx =>
        match (pre ++ recs)[idx]? with
        | some c => if c.text_id = some tid then some c else none
        | none => none) = recs := by
  intro recs
  induction recs with
  | nil => intro pre _; rfl
  | cons r rest ih =>
    intro pre hall
    rw [List.length_cons, List.range'_succ, List.filterMap_cons]
    have hr : (pre ++ r :: rest)[pre.length]? = some r := by
      rw [List.getElem?_append_right (Nat.le_refl _), Nat.sub_self, List.getElem?_cons_zero]
    rw [hr]
    dsimp only
    rw [if_pos (hall r (List.mem_cons_self _ _))]
    have hre : pre ++ r :: rest = (pre ++ [r]) ++ rest := by
      rw [List.append_assoc, List.singleton_append]
    have hlen : pre.length + 1 = (pre ++ [r]).length := by
      rw [List.length_append, List.length_singleton]
    rw [hre, hlen, ih (pre ++ [r]) (fun x hx => hall x (List.mem_cons_of_mem _ hx))]

/-- C8 counterexample: after add("d1", A) then add("d1", B) directly, both
catalog records are live chunks of "d1", but the document index maps "d1"
only to the second slot; update("d1", metadata={importance: 0.9}) then merges
into slot 1 only — slot 0 is a live chunk of "d1" left without the merged
key, refuting "shallow-merges every key of m into every live chunk of
doc_id". -/
theorem C8_counterexample :
    ((runOps nrmId provAB [.add "d1".data "alpha".data none, .add "d1".data "beta".data none,
        .update "d1".data none (some [("importance".data, Val.num (mkRat 9 10))])]).chunks[0]?).map
        (fun c => (c.text_id, alGet c.metadata "importance".data)) =
      some (some "d1".data, none) ∧
    ((runOps nrmId provAB [.add "d1".data "alpha".data none, .add "d1".data "beta".data none,
        .update "d1".data none (some [("importance".data, Val.num (mkRat 9 10))])]).chunks[1]?).map
        (fun c => alGet c.metadata "importance".data) =
      some (some (Val.num (mkRat 9 10))) :=
  ⟨by decide, by decide⟩

/-- C8 (amended): for every reachable state and mapped doc_id,
update(doc_id, metadata=m) with no content returns true and shallow-merges
every key of m into the stored metadata of every chunk at the currently
mapped slots still owned by doc_id, stamping each with an updated_at
timestamp newer than that chunk's created_at; chunks outside the current
mapping are untouched; when no mapped slot is still owned by doc_id
(doc_id mapped but without live slots), the call is a silent no-op that
changes nothing and raises no exception. -/
theorem C8_amended (nrm : Vec → Vec) (provider : PyStr → Option Vec) (ops : List Op)
    (tid : PyStr) (m : PyDict Val) (idxs : List Nat)
    (hmap : alGet (runOps nrm provider ops).id_map tid = some idxs)
    (hmnd : (m.map Prod.fst).Nodup) :
    (update_text nrm provider (runOps nrm provider ops) tid none (some m)).2 = true ∧
    (∀ idx ∈ idxs, ∀ c, (runOps nrm provider ops).chunks[idx]? = some c →
      c.text_id = some tid →
      ∃ c2, (update_text nrm provider (runOps nrm provider ops) tid none
          (some m)).1.chunks[idx]? = some c2 ∧
        (∀ k v, k ≠ "updated_at".data → alGet m k = some v → alGet c2.metadata k = some v) ∧
        (∀ k, k ≠ "updated_at".data → alGet m k = none →
          alGet c2.metadata k = alGet c.metadata k) ∧
        (∃ t : Nat, alGet c2.metadata "updated_at".data = some (Val.num (t : ℚ)) ∧
          c.created_at < t)) ∧
    (∀ j, j ∉ idxs → (update_text nrm provider (runOps nrm provider ops) tid none
        (some m)).1.chunks[j]? = (runOps nrm provider ops).chunks[j]?) ∧
    ((∀ idx ∈ idxs, ∀ c, (runOps nrm provider ops).chunks[idx]? = some c →
        c.text_id ≠ some tid) →
      update_text nrm provider (runOps nrm provider ops) tid none (some m) =
        (runOps nrm provider ops, true)) := by
  have hinv := runOps_inv nrm provider ops
  have hnd : idxs.Nodup := hinv.imnd (tid, idxs) (alGet_mem _ _ _ hmap)
  obtain ⟨l1, l2, l3, l4⟩ := mergeRun_spec tid m idxs (runOps nrm provider ops).chunks
    (runOps nrm provider ops).clock hnd
  have hupd : update_text nrm provider (runOps nrm provider ops) tid none (some m) =
      ({ runOps nrm provider ops with
          chunks := (mergeRun tid m (runOps nrm provider ops).chunks
            (runOps nrm provider ops).clock idxs).1,
          clock := (mergeRun tid m (runOps nrm provider ops).chunks
            (runOps nrm provider ops).clock idxs).2 }, true) := by
    rw [update_text, hmap]
  refine ⟨by rw [hupd], ?_, ?_, ?_⟩
  · intro idx hidx c hc hti
    obtain ⟨t, ht1, ht2⟩ := (l4 idx hidx c hc).1 hti
    refine ⟨_, by rw [hupd]; exact ht2, ?_, ?_, ?_⟩
    · intro k v hk hv
      dsimp only
      rw [alGet_alSet_ne _ _ _ _ (fun e => hk e.symm)]
      exact alGet_alUpdate_mem m c.metadata k v hmnd hv
    · intro k hk hv
      dsimp only
      rw [alGet_alSet_ne _ _ _ _ (fun e => hk e.symm)]
      exact alGet_alUpdate_notmem m c.metadata k (alGet_eq_none_notmem m k hv)
    · refine ⟨t, ?_, Nat.lt_of_lt_of_le (hinv.clk idx c hc) ht1⟩
      dsimp only
      exact alGet_alSet_self _ _ _
  · intro j hj
    rw [hupd]
    exact l3 j hj
  · intro hno
    rw [update_text, hmap]
    dsimp only
    rw [mergeRun_noop tid m idxs _ _ hno]

theorem C8_amended_witness :
    (update_text nrmId provAB (runOps nrmId provAB [.add "d1".data "alpha".data none])
      "d1".data none (some [("importance".data, Val.num (mkRat 9 10))])).2 = true ∧
    (∀ idx ∈ [0], ∀ c,
      (runOps nrmId provAB [.add "d1".data "alpha".data none]).chunks[idx]? = some c →
      c.text_id = some "d1".data →
      ∃ c2, (update_text nrmId provAB (runOps nrmId provAB [.add "d1".data "alpha".data none])
          "d1".data none (some [("importance".data, Val.num (mkRat 9 10))])).1.chunks[idx]? =
            some c2 ∧
        (∀ k v, k ≠ "updated_at".data →
          alGet [("importance".data, Val.num (mkRat 9 10))] k = some v →
          alGet c2.metadata k = some v) ∧
        (∀ k, k ≠ "updated_at".data →
          alGet [("importance".data, Val.num (mkRat 9 10))] k = none →
          alGet c2.metadata k = alGet c.metadata k) ∧
        (∃ t : Nat, alGet c2.metadata "updated_at".data = some (Val.num (t : ℚ)) ∧
          c.created_at < t)) ∧
    (∀ j, j ∉ ([0] : List Nat) →
      (update_text nrmId provAB (runOps nrmId provAB [.add "d1".data "alpha".data none])
        "d1".data none (some [("importance".data, Val.num (mkRat 9 10))])).1.chunks[j]? =
        (runOps nrmId provAB [.add "d1".data "alpha".data none]).chunks[j]?) ∧
    ((∀ idx ∈ [0], ∀ c,
        (runOps nrmId provAB [.add "d1".data "alpha".data none]).chunks[idx]? = some c →
        c.text_id ≠ some "d1".data) →
      update_text nrmId provAB (runOps nrmId provAB [.add "d1".data "alpha".data none])
          "d1".data none (some [("importance".data, Val.num (mkRat 9 10))]) =
        (runOps nrmId provAB [.add "d1".data "alpha".data none], true)) :=
  C8_amended nrmId provAB [.add "d1".data "alpha".data none] "d1".data
    [("importance".data, Val.num (mkRat 9 10))] [0] (by decide) (by decide)

/-- C4 counterexample: after add("d1", alpha), add("d1", beta) and then
update("d1", content=gamma), the update tombstones only the currently mapped
slot (slot 1, beta); slot 0 (alpha) is a pre-update chunk that stays live
under "d1", and a search for alpha returns "d1" resolved from that
pre-update slot — refuting "afterwards no search result for doc_id resolves
to a pre-update chunk". -/
theorem C4_counterexample :
    search nrmId provMulti
        (runOps nrmId provMulti [.add "d1".data "alpha".data none,
          .add "d1".data "beta".data none,
          .update "d1".data (some "gamma".data) none])
        "alpha".data 5 =
      some [⟨"d1".data, "alpha".data, [], 0, 0⟩] ∧
    (runOps nrmId provMulti [.add "d1".data "alpha".data none,
        .add "d1".data "beta".data none]).chunks[0]? =
      some ⟨0, some "d1".data, 0, "alpha".data, [], 0⟩ :=
  ⟨by decide, by decide⟩

/-- C4 (amended): update(doc_id, content) on an absent doc_id returns false
and changes nothing.  On a reachable state where doc_id is mapped, it returns
true, tombstones every currently mapped slot of doc_id, re-indexes the new
content under fresh slots (at and above the old catalog end), and afterwards
no search result for doc_id resolves to one of those previously mapped
slots; chunks of doc_id recorded by an earlier overwritten add are not
tombstoned and may still be returned.  A search matching the new content can
return doc_id (final conjunct, concrete store). -/
theorem C4_amended :
    (∀ (nrm : Vec → Vec) (provider : PyStr → Option Vec) (s : VSState) (tid c : PyStr)
      (md : Option (PyDict Val)), alGet s.id_map tid = none →
      update_text nrm provider s tid (some c) md = (s, false)) ∧
    (∀ (nrm : Vec → Vec) (provider : PyStr → Option Vec) (ops : List Op) (tid c : PyStr)
      (md : Option (PyDict Val)) (old : List Nat),
      alGet (runOps nrm provider ops).id_map tid = some old →
      (update_text nrm provider (runOps nrm provider ops) tid (some c) md).2 = true ∧
      (∀ idx ∈ old, ∃ c0,
        (update_text nrm provider (runOps nrm provider ops) tid (some c) md).1.chunks[idx]? =
          some c0 ∧ c0.text_id = none) ∧
      (alGet (update_text nrm provider (runOps nrm provider ops) tid
          (some c) md).1.id_map tid =
        some (List.range' (runOps nrm provider ops).chunks.length (chunksForAdd c).length) ∧
        1 ≤ (chunksForAdd c).length) ∧
      (∀ (q : PyStr) (lim : Nat) (rs : List SearchResult),
        search nrm provider
          (update_text nrm provider (runOps nrm provider ops) tid (some c) md).1 q lim =
            some rs →
        ∀ r ∈ rs, r.id = tid → ∀ idx ∈ old, r.chunk_index ≠ (idx : Int))) ∧
    search nrmId provMulti
        (runOps nrmId provMulti [.add "d1".data "alpha".data none,
          .add "d1".data "beta".data none,
          .update "d1".data (some "gamma".data) none])
        "gamma".data 5 =
      some [⟨"d1".data, "gamma".data, [], 0, 2⟩] := by
  refine ⟨?_, ?_, by decide⟩
  · intro nrm provider s tid c md h
    rw [update_text, h]
  · intro nrm provider ops tid c md old hmap
    have hinv := runOps_inv nrm provider ops
    have hvalid : ∀ idx ∈ old, idx < (runOps nrm provider ops).chunks.length :=
      hinv.idmap (tid, old) (alGet_mem _ _ _ hmap)
    have hupd : update_text nrm provider (runOps nrm provider ops) tid (some c) md =
        ({ (add_text nrm provider (runOps nrm provider ops) tid c md).1 with
            chunks := tombstoneAll
              (add_text nrm provider (runOps nrm provider ops) tid c md).1.chunks old }, true) := by
      rw [update_text, hmap]
    have htomb : ∀ idx ∈ old, ∃ c0,
        (update_text nrm provider (runOps nrm provider ops) tid (some c) md).1.chunks[idx]? =
          some c0 ∧ c0.text_id = none := by
      intro idx hidx
      have hlt : idx < (runOps nrm provider ops).chunks.length := hvalid idx hidx
      have hsome :
          (add_text nrm provider (runOps nrm provider ops) tid c md).1.chunks[idx]? =
            (runOps nrm provider ops).chunks[idx]? := by
        rw [add_text_spec]
        dsimp only
        rw [List.getElem?_append_left hlt]
      rw [hupd]
      dsimp only
      rw [tombstoneAll_getElem?, if_pos hidx, hsome, List.getElem?_eq_getElem hlt]
      exact ⟨_, rfl, rfl⟩
    refine ⟨by rw [hupd], htomb, ⟨?_, ?_⟩, ?_⟩
    · rw [hupd]
      dsimp only
      rw [add_text_spec]
      dsimp only
      exact alGet_alSet_self _ _ _
    · exact List.length_pos.2 (chunksForAdd_ne_nil c)
    · intro q lim rs hsearch r hr hid idx hidx he
      obtain ⟨_, h2, _⟩ := search_spec nrm provider _ q lim rs hsearch
      obtain ⟨cres, hcres, hctid, _, _⟩ := h2 r hr
      rw [he, pyGet_ofNat] at hcres
      obtain ⟨c0, hc0, hc0t⟩ := htomb idx hidx
      rw [hc0] at hcres
      injection hcres with hcres
      subst hcres
      rw [hc0t] at hctid
      exact Option.noConfusion hctid

theorem C4_amended_witness :
    update_text nrmId provAB initState "dx".data (some "alpha".data) none =
      (initState, false) ∧
    (update_text nrmId provAB (runOps nrmId provAB [.add "d1".data "alpha".data none])
      "d1".data (some "beta".data) none).2 = true :=
  ⟨C4_amended.1 nrmId provAB initState "dx".data "alpha".data none (by decide),
    (C4_amended.2.1 nrmId provAB [.add "d1".data "alpha".data none] "d1".data "beta".data
      none [0] (by decide)).1⟩

/-- C10: calling add on an already present doc_id overwrites the document
index to the new slots without tombstoning the earlier slots: every catalog
record from before the add (in particular the first call's chunks, which keep
their doc_id and stay live) is unchanged, the document index maps doc_id to
exactly the new slots, and chunks_of(doc_id) returns only the chunks of the
latest add; on a concrete double-add store, search still returns the earlier
content for that doc_id while the document index points at the latest add. -/
theorem C10_direct_readd :
    (∀ (nrm : Vec → Vec) (provider : PyStr → Option Vec) (s : VSState) (tid : PyStr)
      (old : List Nat) (c2 : PyStr) (md : Option (PyDict Val)),
      alGet s.id_map tid = some old →
      (∀ j, j < s.chunks.length →
        (add_text nrm provider s tid c2 md).1.chunks[j]? = s.chunks[j]?) ∧
      alGet (add_text nrm provider s tid c2 md).1.id_map tid =
        some (add_text nrm provider s tid c2 md).2 ∧
      get_all_chunks_for_text (add_text nrm provider s tid c2 md).1 tid =
        (add_text nrm provider s tid c2 md).1.chunks.drop s.chunks.length) ∧
    search nrmId provAB (runOps nrmId provAB [.add "d1".data "alpha".data none,
        .add "d1".data "beta".data none]) "alpha".data 5 =
      some [⟨"d1".data, "alpha".data, [], 0, 0⟩] ∧
    alGet (runOps nrmId provAB [.add "d1".data "alpha".data none,
        .add "d1".data "beta".data none]).id_map "d1".data = some [1] ∧
    get_all_chunks_for_text (runOps nrmId provAB [.add "d1".data "alpha".data none,
        .add "d1".data "beta".data none]) "d1".data =
      [⟨1, some "d1".data, 0, "beta".data, [], 1⟩] := by
  refine ⟨?_, by decide, by decide, by decide⟩
  intro nrm provider s tid old c2 md hmap
  refine ⟨?_, ?_, ?_⟩
  · intro j hj
    rw [add_text_spec]
    dsimp only
    rw [List.getElem?_append_left hj]
  · rw [add_text_spec]
    dsimp only
    exact alGet_alSet_self _ _ _
  · rw [add_text_spec]
    dsimp only
    rw [get_all_chunks_for_text]
    dsimp only
    rw [alGet_alSet_self]
    dsimp only
    have hlen : (chunksForAdd c2).length =
        (mkRecs tid (md.getD []) (chunksForAdd c2) s.chunks.length 0 s.clock).length :=
      (mkRecs_length _ _ _ _ _ _).symm
    rw [hlen, filterMap_range'_append tid _ s.chunks
      (fun r hr => (mkRecs_mem _ _ _ _ _ _ r hr).1), List.drop_left]

theorem C10_witness :
    (∀ j, j < (runOps nrmId provAB [.add "d1".data "alpha".data none]).chunks.length →
      (add_text nrmId provAB (runOps nrmId provAB [.add "d1".data "alpha".data none])
        "d1".data "beta".data none).1.chunks[j]? =
        (runOps nrmId provAB [.add "d1".data "alpha".data none]).chunks[j]?) ∧
    alGet (add_text nrmId provAB (runOps nrmId provAB [.add "d1".data "alpha".data none])
        "d1".data "beta".data none).1.id_map "d1".data =
      some (add_text nrmId provAB (runOps nrmId provAB [.add "d1".data "alpha".data none])
        "d1".data "beta".data none).2 ∧
    get_all_chunks_for_text (add_text nrmId provAB
        (runOps nrmId provAB [.add "d1".data "alpha".data none])
        "d1".data "beta".data none).1 "d1".data =
      (add_text nrmId provAB (runOps nrmId provAB [.add "d1".data "alpha".data none])
        "d1".data "beta".data none).1.chunks.drop
        (runOps nrmId provAB [.add "d1".data "alpha".data none]).chunks.length :=
  C10_direct_readd.1 nrmId provAB (runOps nrmId provAB [.add "d1".data "alpha".data none])
    "d1".data [0] "beta".data none (by decide)
